import Mathlib

/-!
Shallow embedding of the wave-function-collapse core in src/core/wfc.py.

Modelling conventions:
* Tile symbols are natural numbers.  The dictionary tile_to_index is a
  function into Option Nat; a missing key gives none (a raw subscript on a
  missing key raises KeyError in Python, which the embedding surfaces as an
  explicit error value where the code uses raw subscripts, and as the 0.0
  default where the code uses dict.get).
* Python floats are modelled as rationals; the comparisons the code makes
  (orderings against 0.0 and the 1e-9 threshold, cumulative sums) are exact.
* A Python set of tiles is modelled as the list of its elements in iteration
  order; set difference is realised by List.filter, which fixes one of the
  unspecified iteration orders.
* The calls to the random module are modelled by explicit oracle arguments:
  an index oracle for random.choice and a rational draw for random.uniform.
* The propagation worklist loop is given explicit fuel; the value none means
  the fuel ran out.  A theorem below shows a concrete fuel bound on which the
  loop always delivers an answer, which is the termination of the Python loop.
-/

abbrev Domain := List Nat

abbrev Grid := List (List Domain)

/-- Shape and contents of the numpy array adjacency_bool. -/
structure Adjacency where
  s0 : Nat
  s1 : Nat
  s2 : Nat
  rel : Nat → Nat → Nat → Bool

/-- Reading grid[y][x]; out-of-range reads give the empty domain. -/
def gridGet (grid : Grid) (x y : Nat) : Domain :=
  (grid.getD y []).getD x []

/-- Writing grid[y][x] = d; out-of-range writes are dropped. -/
def gridSet (grid : Grid) (x y : Nat) (d : Domain) : Grid :=
  grid.set y ((grid.getD y []).set x d)

/-- initialize_wfc_grid: every cell starts with the full list of symbols. -/
def initialize_wfc_grid (width height : Nat) (tile_symbols : List Nat) : Grid :=
  List.replicate height (List.replicate width tile_symbols)

/-- Row-major traversal order of the double loop over y in range(len(grid)),
x in range(len(grid[0])). -/
def rowMajorCells (grid : Grid) : List (Nat × Nat) :=
  (List.range grid.length).flatMap fun y =>
    (List.range (grid.getD 0 []).length).map fun x => (x, y)

/-- One iteration of the body of find_lowest_entropy_cell.  The state is the
pair (min_entropy, candidates); none stands for the initial float infinity. -/
def entropyUpdate (grid : Grid) (st : Option Nat × List (Nat × Nat))
    (c : Nat × Nat) : Option Nat × List (Nat × Nat) :=
  let n := (gridGet grid c.1 c.2).length
  match st with
  | (none, cands) => if 1 < n then (some n, [c]) else (none, cands)
  | (some m, cands) =>
      if 1 < n ∧ n < m then (some n, [c])
      else if n = m then (some m, cands ++ [c])
      else (some m, cands)

/-- The candidates list computed by the scan in find_lowest_entropy_cell. -/
def entropyCandidates (grid : Grid) : List (Nat × Nat) :=
  ((rowMajorCells grid).foldl (entropyUpdate grid) (none, [])).2

/-- find_lowest_entropy_cell.  The argument randIdx is the oracle for
random.choice: the chosen index is randIdx modulo the number of candidates. -/
def find_lowest_entropy_cell (grid : Grid) (deterministic : Bool)
    (randIdx : Nat) : Option (Nat × Nat) :=
  let candidates := entropyCandidates grid
  if deterministic then candidates.head?
  else if candidates.isEmpty then none
  else candidates.get? (randIdx % candidates.length)

/-- The weight the code reads for one tile: action_probs[idx] when
tile_to_index.get(tile) is an index inside action_probs, else 0.0. -/
def weightOf (tile_to_index : Nat → Option Nat) (action_probs : List ℚ)
    (tile : Nat) : ℚ :=
  match tile_to_index tile with
  | some idx => if idx < action_probs.length then action_probs.getD idx 0 else 0
  | none => 0

/-- The deterministic scan of collapse_cell: fold over tile_symbols keeping
the first tile of maximal weight among those in the domain.  The accumulator
(none, none) stands for best_tile = None, max_prob = -inf. -/
def detScan (tile_symbols : List Nat) (possible : Domain)
    (tile_to_index : Nat → Option Nat) (action_probs : List ℚ) :
    Option Nat × Option ℚ :=
  tile_symbols.foldl
    (fun acc tile =>
      if tile ∈ possible then
        let prob := weightOf tile_to_index action_probs tile
        match acc with
        | (_, none) => (some tile, some prob)
        | (b, some mp) => if mp < prob then (some tile, some prob) else (b, some mp)
      else acc)
    (none, none)

/-- The epsilon 1e-9 used by the stochastic branch, as the exact rational
with numerator 1 and denominator 10^9. -/
def wfcEps : ℚ := mkRat 1 1000000000

/-- The stochastic accumulation loop of collapse_cell: clamp each weight at 0,
keep tiles whose clamped weight exceeds 1e-9, and total the kept weights.
The result is (weights, valid_tiles, total). -/
def stochAccum (tile_to_index : Nat → Option Nat) (action_probs : List ℚ)
    (possible : Domain) : List ℚ × List Nat × ℚ :=
  possible.foldl
    (fun acc tile =>
      let w := max 0 (weightOf tile_to_index action_probs tile)
      if wfcEps < w then (acc.1 ++ [w], acc.2.1 ++ [tile], acc.2.2 + w)
      else acc)
    ([], [], 0)

/-- The cumulative roulette loop: walk the (weight, tile) pairs accumulating
cum and return the first tile with r ≤ cum; the default argument is the
initial chosen_tile = valid_tiles[-1]. -/
def roulette (r : ℚ) : ℚ → List (ℚ × Nat) → Nat → Nat
  | _, [], chosen => chosen
  | cum, (w, t) :: rest, chosen =>
      if r ≤ cum + w then t else roulette r (cum + w) rest chosen

/-- collapse_cell.  The oracle r models random.uniform(0, total) and the
oracle u models random.choice over the domain list.  The result pairs the
updated grid with the returned value (none models the Python None). -/
def collapse_cell (grid : Grid) (tile_symbols : List Nat)
    (tile_to_index : Nat → Option Nat) (x y : Nat) (action_probs : List ℚ)
    (deterministic : Bool) (r : ℚ) (u : Nat) : Grid × Option Nat :=
  let possible := gridGet grid x y
  if possible = [] then (grid, none)
  else if deterministic then
    match detScan tile_symbols possible tile_to_index action_probs with
    | (some best, some mp) =>
        if 0 < mp then (gridSet grid x y [best], some best) else (grid, none)
    | _ => (grid, none)
  else
    let acc := stochAccum tile_to_index action_probs possible
    let chosen :=
      if wfcEps < acc.2.2 then
        -- valid_tiles is nonempty whenever total exceeds the threshold, so
        -- the default only models the Python initialisation chosen_tile =
        -- valid_tiles[-1].
        roulette r 0 (acc.1.zip acc.2.1) (acc.2.1.getLastD 0)
      else possible.getD (u % possible.length) 0
    (gridSet grid x y [chosen], some chosen)

/-- The list [(dir_idx, dx, dy)] enumerated by the direction loop of
propagate_constraints: U, D, L, R. -/
def dirList : List (Nat × Int × Int) :=
  [(0, 0, -1), (1, 0, 1), (2, -1, 0), (3, 1, 0)]

/-- The inner loop of propagate_constraints over current_possibilities,
looking for one current tile that supports the neighbor index nIdx in
direction dirIdx.  none models a KeyError on tile_to_index[current_tile]. -/
def isSupported (adj : Adjacency) (tile_to_index : Nat → Option Nat)
    (dirIdx nIdx : Nat) : List Nat → Option Bool
  | [] => some false
  | c :: cs =>
      match tile_to_index c with
      | none => none
      | some cIdx =>
          if cIdx < adj.s0 ∧ dirIdx < adj.s1 ∧ nIdx < adj.s2 then
            if adj.rel cIdx dirIdx nIdx then some true
            else isSupported adj tile_to_index dirIdx nIdx cs
          else isSupported adj tile_to_index dirIdx nIdx cs

/-- The loop building removed_options for one neighbor: the neighbor tiles
not supported by any current possibility.  none models a KeyError. -/
def removedOptions (adj : Adjacency) (tile_to_index : Nat → Option Nat)
    (curr : Domain) (dirIdx : Nat) : List Nat → Option (List Nat)
  | [] => some []
  | nt :: rest =>
      match tile_to_index nt with
      | none => none
      | some nIdx =>
          match isSupported adj tile_to_index dirIdx nIdx curr with
          | none => none
          | some true => removedOptions adj tile_to_index curr dirIdx rest
          | some false =>
              match removedOptions adj tile_to_index curr dirIdx rest with
              | none => none
              | some l => some (nt :: l)

/-- Outcome of processing the four directions of one popped cell. -/
inductive DirsOut where
  | ok (g : Grid) (stack : List (Nat × Nat))
  | contra (g : Grid)
  | err
deriving DecidableEq

/-- The direction loop of propagate_constraints for one popped cell
(cx, cy) with possibilities curr, threading grid and stack.  The stack is
kept top-first: Python append/pop at the list end become cons/head here. -/
def processDirs (adj : Adjacency) (tile_to_index : Nat → Option Nat)
    (width height cx cy : Nat) (curr : Domain) :
    List (Nat × Int × Int) → Grid → List (Nat × Nat) → DirsOut
  | [], g, st => .ok g st
  | (dirIdx, dx, dy) :: ds, g, st =>
      let nxI : Int := (cx : Int) + dx
      let nyI : Int := (cy : Int) + dy
      if 0 ≤ nxI ∧ nxI < (width : Int) ∧ 0 ≤ nyI ∧ nyI < (height : Int) then
        let nx := nxI.toNat
        let ny := nyI.toNat
        let orig := gridGet g nx ny
        if orig = [] then
          processDirs adj tile_to_index width height cx cy curr ds g st
        else
          match removedOptions adj tile_to_index curr dirIdx orig with
          | none => .err
          | some removed =>
              if removed = [] then
                processDirs adj tile_to_index width height cx cy curr ds g st
              else
                let newPoss := orig.filter (fun t => t ∉ removed)
                if newPoss = [] then .contra (gridSet g nx ny [])
                else if newPoss.length < orig.length then
                  let st2 := if (nx, ny) ∈ st then st else (nx, ny) :: st
                  processDirs adj tile_to_index width height cx cy curr ds
                    (gridSet g nx ny newPoss) st2
                else
                  processDirs adj tile_to_index width height cx cy curr ds g st
      else processDirs adj tile_to_index width height cx cy curr ds g st

/-- Outcome of propagate_constraints: the returned boolean together with the
grid as the caller sees it after the in-place mutations; err models a
KeyError escaping the call. -/
inductive PropOut where
  | success (g : Grid)
  | failure (g : Grid)
  | err
deriving DecidableEq

/-- The while-stack loop of propagate_constraints, with explicit fuel. -/
def propagateLoop (adj : Adjacency) (tile_to_index : Nat → Option Nat)
    (width height : Nat) : Nat → List (Nat × Nat) → Grid → Option PropOut
  | 0, _, _ => none
  | _ + 1, [], g => some (.success g)
  | fuel + 1, (cx, cy) :: rest, g =>
      if gridGet g cx cy = [] then
        propagateLoop adj tile_to_index width height fuel rest g
      else
        match processDirs adj tile_to_index width height cx cy
            (gridGet g cx cy) dirList g rest with
        | .ok g2 st2 => propagateLoop adj tile_to_index width height fuel st2 g2
        | .contra g2 => some (.failure g2)
        | .err => some .err

/-- propagate_constraints: seed the stack with the start cell; width and
height are read off the grid as in the source. -/
def propagate_constraints (adj : Adjacency) (tile_to_index : Nat → Option Nat)
    (grid : Grid) (start_x start_y : Nat) (fuel : Nat) : Option PropOut :=
  propagateLoop adj tile_to_index (grid.getD 0 []).length grid.length fuel
    [(start_x, start_y)] grid

/-- The scan of biome_wfc_step when no candidate cell exists: the pair
(contradiction_found, all_collapsed) of the double loop with breaks.
contradiction_found is true exactly when some cell is empty; all_collapsed is
true exactly when every cell has exactly one possibility. -/
def scanFlags (grid : Grid) : Bool × Bool :=
  (grid.any fun row => row.any fun cell => cell.isEmpty,
   grid.all fun row => row.all fun cell => cell.length = 1)

/-- Outcome of one biome_wfc_step call: the grid and the pair
(terminated, truncated), or err for a KeyError escaping propagation. -/
inductive StepOut where
  | ok (g : Grid) (terminated truncated : Bool)
  | err
deriving DecidableEq

/-- biome_wfc_step.  selRand and selRand2 are the random.choice oracles of
the two selector calls, r and u the oracles of collapse_cell, fuel the fuel
of the propagation loop. -/
def biome_wfc_step (adj : Adjacency) (tile_symbols : List Nat)
    (tile_to_index : Nat → Option Nat) (action_probs : List ℚ)
    (deterministic : Bool) (selRand selRand2 : Nat) (r : ℚ) (u : Nat)
    (fuel : Nat) (grid : Grid) : Option StepOut :=
  match find_lowest_entropy_cell grid deterministic selRand with
  | none =>
      let f := scanFlags grid
      if f.1 then some (.ok grid false true)
      else if f.2 then some (.ok grid true false)
      else some (.ok grid false true)
  | some (x, y) =>
      let c := collapse_cell grid tile_symbols tile_to_index x y action_probs
        deterministic r u
      match c.2 with
      | none => some (.ok c.1 false true)
      | some _ =>
          match propagate_constraints adj tile_to_index c.1 x y fuel with
          | none => none
          | some .err => some .err
          | some (.failure g2) => some (.ok g2 false true)
          | some (.success g2) =>
              match find_lowest_entropy_cell g2 deterministic selRand2 with
              | some _ => some (.ok g2 false false)
              | none =>
                  let f := scanFlags g2
                  if f.1 then some (.ok g2 false true)
                  else if f.2 then some (.ok g2 true false)
                  else some (.ok g2 false true)

/-- Total number of possibilities left in the grid. -/
def gridTotal (grid : Grid) : Nat :=
  (grid.map fun row => (row.map List.length).sum).sum

/-- Fuel on which the propagation loop of one step always completes. -/
def stepFuel (grid : Grid) : Nat := 2 * gridTotal grid + 2

/-- biome_wfc_step with the canonical sufficient fuel, standing for the
Python function, which carries no fuel. -/
def biome_wfc_stepAuto (adj : Adjacency) (tile_symbols : List Nat)
    (tile_to_index : Nat → Option Nat) (action_probs : List ℚ)
    (deterministic : Bool) (selRand selRand2 : Nat) (r : ℚ) (u : Nat)
    (grid : Grid) : Option StepOut :=
  biome_wfc_step adj tile_symbols tile_to_index action_probs deterministic
    selRand selRand2 r u (stepFuel grid) grid

/-- The grid and flags returned by the k-th of a series of
biome_wfc_step calls driven by streams of weight vectors and oracles;
call i (counting from 1) consumes index i-1 of every stream, and
runSteps 0 is the pseudo-state before any call.  none records a call that
either ran out of fuel (impossible on the canonical fuel) or raised. -/
def runSteps (adj : Adjacency) (tile_symbols : List Nat)
    (tile_to_index : Nat → Option Nat) (probs : Nat → List ℚ)
    (deterministic : Bool) (sel1 sel2 : Nat → Nat) (rs : Nat → ℚ)
    (us : Nat → Nat) (grid : Grid) : Nat → Option (Grid × Bool × Bool)
  | 0 => some (grid, false, false)
  | k + 1 =>
      match biome_wfc_stepAuto adj tile_symbols tile_to_index (probs 0)
          deterministic (sel1 0) (sel2 0) (rs 0) (us 0) grid with
      | some (.ok g2 t r) =>
          match k with
          | 0 => some (g2, t, r)
          | _ + 1 =>
              runSteps adj tile_symbols tile_to_index (fun n => probs (n + 1))
                deterministic (fun n => sel1 (n + 1)) (fun n => sel2 (n + 1))
                (fun n => rs (n + 1)) (fun n => us (n + 1)) g2 k
      | _ => none

/-- Number of cells still undecided (more than one possibility), counted over
the row-major traversal. -/
def undecidedCount (g : Grid) : Nat :=
  (rowMajorCells g).countP fun c => decide (1 < (gridGet g c.1 c.2).length)

/-- Pointwise domination of cell domains: every tile of g2 is a tile of g and
no cell gained length. -/
def Subgrid (g2 g : Grid) : Prop :=
  ∀ x y, (∀ t ∈ gridGet g2 x y, t ∈ gridGet g x y) ∧
    (gridGet g2 x y).length ≤ (gridGet g x y).length

/-- Every tile present anywhere in the grid has an index in the mapping. -/
def Covered (tile_to_index : Nat → Option Nat) (g : Grid) : Prop :=
  ∀ x y, ∀ t ∈ gridGet g x y, (tile_to_index t).isSome

/-- Grid used as the concrete instance for the selector claim. -/
def gC4w : Grid := [[[0, 1], [5], [7, 8, 9], [2, 3]]]

/-- Rectangular grid of the given dimensions. -/
def Rect (g : Grid) (W H : Nat) : Prop :=
  g.length = H ∧ ∀ row ∈ g, row.length = W

/-- Boolean version of the support test of propagate_constraints: some tile
of curr has an index inside the adjacency shape that relates to nIdx in
direction dirIdx. -/
def supportedB (adj : Adjacency) (tile_to_index : Nat → Option Nat)
    (curr : Domain) (dirIdx nIdx : Nat) : Bool :=
  curr.any fun c =>
    match tile_to_index c with
    | some cIdx =>
        decide (cIdx < adj.s0) && decide (dirIdx < adj.s1) &&
          decide (nIdx < adj.s2) && adj.rel cIdx dirIdx nIdx
    | none => false

/-- Local arc consistency of the whole grid: for every in-range cell and
every direction whose neighbor is in range, every tile surviving in the
neighbor has a supporting tile in the cell.  Quantifying over all four
directions at every cell makes this the same property as: every tile of
every cell has a support in each of its in-bounds neighbors. -/
def arcConsistentB (adj : Adjacency) (tile_to_index : Nat → Option Nat)
    (g : Grid) : Bool :=
  (rowMajorCells g).all fun c =>
    dirList.all fun d =>
      let nxI : Int := (c.1 : Int) + d.2.1
      let nyI : Int := (c.2 : Int) + d.2.2
      if 0 ≤ nxI ∧ nxI < ((g.getD 0 []).length : Int) ∧
          0 ≤ nyI ∧ nyI < (g.length : Int) then
        (gridGet g nxI.toNat nyI.toNat).all fun t =>
          match tile_to_index t with
          | some nIdx => supportedB adj tile_to_index (gridGet g c.1 c.2) d.1 nIdx
          | none => false
      else true

/-- The neighbor of a cell in a given direction is inside a W by H grid. -/
def nbrOk (W H : Nat) (c : Nat × Nat) (d : Nat × Int × Int) : Prop :=
  0 ≤ (c.1 : Int) + d.2.1 ∧ (c.1 : Int) + d.2.1 < (W : Int) ∧
    0 ≤ (c.2 : Int) + d.2.2 ∧ (c.2 : Int) + d.2.2 < (H : Int)

/-- The neighbor coordinates of a cell in a given direction. -/
def nbr (c : Nat × Nat) (d : Nat × Int × Int) : Nat × Nat :=
  (((c.1 : Int) + d.2.1).toNat, ((c.2 : Int) + d.2.2).toNat)

/-- One directed arc is satisfied: every tile surviving in the target cell
has a support in the source cell in the given direction. -/
def ArcSat (adj : Adjacency) (tile_to_index : Nat → Option Nat) (g : Grid)
    (src tgt : Nat × Nat) (dirIdx : Nat) : Prop :=
  ∀ t ∈ gridGet g tgt.1 tgt.2, ∃ nIdx, tile_to_index t = some nIdx ∧
    supportedB adj tile_to_index (gridGet g src.1 src.2) dirIdx nIdx = true

/-- Worklist invariant of the propagation loop: every arc whose source is
not pending on the stack is satisfied. -/
def PropInv (adj : Adjacency) (tile_to_index : Nat → Option Nat) (W H : Nat)
    (g : Grid) (st : List (Nat × Nat)) : Prop :=
  ∀ c : Nat × Nat, c.1 < W → c.2 < H → c ∉ st → ∀ d ∈ dirList,
    nbrOk W H c d → ArcSat adj tile_to_index g c (nbr c d) d.1

/-- Every in-range empty cell only has empty in-range neighbors. -/
def EmptyNbr (W H : Nat) (g : Grid) : Prop :=
  ∀ c : Nat × Nat, c.1 < W → c.2 < H → gridGet g c.1 c.2 = [] →
    ∀ d ∈ dirList, nbrOk W H c d → gridGet g (nbr c d).1 (nbr c d).2 = []

/-- All stack entries are in range. -/
def StackIn (W H : Nat) (st : List (Nat × Nat)) : Prop :=
  ∀ c ∈ st, c.1 < W ∧ c.2 < H

/-- Index mapping for a two-tile catalog. -/
def ttiTwo : Nat → Option Nat := fun t => if t < 2 then some t else none

/-- Two-tile adjacency in which equal tiles are compatible everywhere. -/
def adjSame : Adjacency := ⟨2, 4, 2, fun a _ b => a == b⟩

/-- Two-tile adjacency in which tile 0 supports everything to the right and
nothing is supported in any other direction. -/
def adjRightOnly : Adjacency := ⟨2, 4, 2, fun a d _ => a == 0 && d == 3⟩

/-- Two-tile adjacency in which everything is compatible. -/
def adjAll : Adjacency := ⟨2, 4, 2, fun _ _ _ => true⟩

/-- The Boolean predicate deciding that a neighbor tile is unsupported (the
membership test of removed_options). -/
def unsupB (adj : Adjacency) (tti : Nat → Option Nat) (curr : Domain)
    (dirIdx : Nat) (t : Nat) : Bool :=
  match tti t with
  | some nIdx => ! supportedB adj tti curr dirIdx nIdx
  | none => true

/-! ### Generic list helpers -/

theorem getLastD_mem {α : Type} {l : List α} (h : l ≠ []) (d : α) :
    l.getLastD d ∈ l := by
  induction l with
  | nil => exact absurd rfl h
  | cons a t ih =>
      cases t with
      | nil => simp
      | cons b t2 => simpa using Or.inr (ih (by simp))

theorem getD_mem {α : Type} {l : List α} {i : Nat} (h : i < l.length) (d : α) :
    l.getD i d ∈ l := by
  induction l generalizing i with
  | nil => simp at h
  | cons a t ih =>
      cases i with
      | zero => simp
      | succ j => simpa using Or.inr (ih (by simpa using h))

theorem filter_length_lt {α : Type} {l : List α} {p : α → Bool} {x : α}
    (hx : x ∈ l) (hp : p x = false) : (l.filter p).length < l.length := by
  induction l with
  | nil => simp at hx
  | cons a t ih =>
      rcases List.mem_cons.mp hx with rfl | hmem
      · simp only [List.filter_cons, hp]
        exact Nat.lt_succ_of_le (List.length_filter_le _ _)
      · by_cases hpa : p a = true
        · simp only [List.filter_cons, hpa, List.length_cons]
          exact Nat.succ_lt_succ (ih hmem)
        · rw [List.filter_cons, if_neg hpa]
          exact Nat.lt_succ_of_lt (ih hmem)

theorem mem_get?_of_mem {α : Type} {l : List α} {c : α} (h : c ∈ l) :
    ∃ i, i < l.length ∧ l.get? i = some c := by
  induction l with
  | nil => simp at h
  | cons a t ih =>
      rcases List.mem_cons.mp h with rfl | hmem
      · exact ⟨0, by simp, rfl⟩
      · obtain ⟨i, hi, hg⟩ := ih hmem
        exact ⟨i + 1, by simpa using hi, by simpa using hg⟩

theorem sum_map_set {α : Type} (f : α → Nat) (l : List α) (i : Nat) (a : α)
    (d : α) (h : i < l.length) :
    ((l.set i a).map f).sum + f (l.getD i d) = (l.map f).sum + f a := by
  induction l generalizing i with
  | nil => simp at h
  | cons b t ih =>
      cases i with
      | zero => simp [Nat.add_comm, Nat.add_assoc, Nat.add_left_comm]
      | succ j =>
          have hj : j < t.length := by simpa using h
          have := ih j hj
          simp only [List.set_cons_succ, List.map_cons, List.sum_cons,
            List.getD_cons_succ]
          omega

theorem countP_flip_one {α : Type} {l : List α} {p q : α → Bool} {c : α}
    (hnd : l.Nodup) (hc : c ∈ l) (hp : p c = true) (hq : q c = false)
    (hrest : ∀ a ∈ l, a ≠ c → q a = p a) :
    l.countP q + 1 = l.countP p := by
  induction l with
  | nil => simp at hc
  | cons a t ih =>
      rcases List.mem_cons.mp hc with hac | hmem
      · have hnot : a ∉ t := (List.nodup_cons.mp hnd).1
        have heq : t.countP q = t.countP p := by
          apply List.countP_congr
          intro b hb
          rw [hrest b (List.mem_cons_of_mem _ hb)
            (fun hbc => hnot ((hbc.trans hac) ▸ hb))]
        simp [List.countP_cons, hac ▸ hp, hac ▸ hq, heq]
      · have hne : a ≠ c := fun hac => (List.nodup_cons.mp hnd).1 (hac ▸ hmem)
        have hqa : q a = p a := hrest a (List.mem_cons_self a t) hne
        have := ih (List.nodup_cons.mp hnd).2 hmem
          (fun b hb hbc => hrest b (List.mem_cons_of_mem _ hb) hbc)
        simp only [List.countP_cons, hqa]
        omega

theorem countP_le_of_imp {α : Type} {l : List α} {p q : α → Bool}
    (h : ∀ a ∈ l, p a = true → q a = true) : l.countP p ≤ l.countP q := by
  induction l with
  | nil => simp
  | cons a t ih =>
      have ht := ih fun b hb => h b (List.mem_cons_of_mem _ hb)
      by_cases hpa : p a = true
      · have hqa := h a (List.mem_cons_self a t) hpa
        simp only [List.countP_cons, hpa, hqa]
        omega
      · have hpa2 : p a = false := by simpa using hpa
        have h1 : List.countP p (a :: t) = List.countP p t := by
          simp [List.countP_cons, hpa2]
        have h2 : List.countP q t ≤ List.countP q (a :: t) := by
          rw [List.countP_cons]
          exact Nat.le_add_right _ _
        rw [h1]
        exact le_trans ht h2

theorem head?_filter_split {α : Type} {l : List α} {p : α → Bool} {c : α}
    (h : (l.filter p).head? = some c) :
    ∃ s t, l = s ++ c :: t ∧ (∀ x ∈ s, p x = false) ∧ p c = true := by
  induction l with
  | nil => simp at h
  | cons a t ih =>
      by_cases hpa : p a = true
      · rw [List.filter_cons, if_pos hpa] at h
        simp only [List.head?_cons, Option.some.injEq] at h
        exact ⟨[], t, by simp [h], by simp, h ▸ hpa⟩
      · rw [List.filter_cons, if_neg hpa] at h
        obtain ⟨s, t2, hl, hs, hc⟩ := ih h
        refine ⟨a :: s, t2, by simp [hl], ?_, hc⟩
        intro x hx
        rcases List.mem_cons.mp hx with hxa | hm
        · rw [hxa]
          simpa using hpa
        · exact hs x hm

/-! ### Grid access lemmas -/

theorem getD_of_le {α : Type} {l : List α} {i : Nat} (h : l.length ≤ i)
    (d : α) : l.getD i d = d := by
  rw [List.getD_eq_getElem?_getD, List.getElem?_eq_none h]
  rfl

theorem getD_set_self {α : Type} {l : List α} {i : Nat} (h : i < l.length)
    (a d : α) : (l.set i a).getD i d = a := by
  rw [List.getD_eq_getElem?_getD, List.getElem?_set_self (by simpa using h)]
  rfl

theorem getD_set_ne {α : Type} {l : List α} {i j : Nat} (h : i ≠ j)
    (a d : α) : (l.set i a).getD j d = l.getD j d := by
  rw [List.getD_eq_getElem?_getD, List.getElem?_set_ne h,
    ← List.getD_eq_getElem?_getD]

theorem gridGet_ne_nil_bounds {g : Grid} {x y : Nat} (h : gridGet g x y ≠ []) :
    y < g.length ∧ x < (g.getD y []).length := by
  unfold gridGet at h
  constructor
  · by_contra hy
    rw [getD_of_le (Nat.le_of_not_lt hy)] at h
    simp at h
  · by_contra hx
    rw [getD_of_le (l := g.getD y []) (Nat.le_of_not_lt hx)] at h
    exact h rfl

theorem gridGet_gridSet_self {g : Grid} {x y : Nat} (d : Domain)
    (hy : y < g.length) (hx : x < (g.getD y []).length) :
    gridGet (gridSet g x y d) x y = d := by
  unfold gridGet gridSet
  rw [getD_set_self hy, getD_set_self hx]

theorem gridGet_gridSet_ne {g : Grid} {x y a b : Nat} (d : Domain)
    (h : ¬(a = x ∧ b = y)) : gridGet (gridSet g x y d) a b = gridGet g a b := by
  unfold gridGet gridSet
  by_cases hby : b = y
  · have hax : a ≠ x := fun hax2 => h ⟨hax2, hby⟩
    rw [hby]
    by_cases hylen : y < g.length
    · rw [getD_set_self hylen, getD_set_ne (fun hxa => hax hxa.symm)]
    · rw [List.set_eq_of_length_le (Nat.le_of_not_lt hylen)]
  · rw [getD_set_ne (fun hyb => hby hyb.symm)]

theorem length_gridSet (g : Grid) (x y : Nat) (d : Domain) :
    (gridSet g x y d).length = g.length :=
  List.length_set g y _

theorem rowLength_gridSet (g : Grid) (x y : Nat) (d : Domain) (i : Nat) :
    ((gridSet g x y d).getD i []).length = (g.getD i []).length := by
  unfold gridSet
  by_cases hiy : i = y
  · rw [hiy]
    by_cases hlen : y < g.length
    · rw [getD_set_self hlen]
      exact List.length_set _ _ _
    · rw [List.set_eq_of_length_le (Nat.le_of_not_lt hlen)]
  · rw [getD_set_ne (fun h => hiy h.symm)]

theorem rowMajorCells_gridSet (g : Grid) (x y : Nat) (d : Domain) :
    rowMajorCells (gridSet g x y d) = rowMajorCells g := by
  unfold rowMajorCells
  rw [length_gridSet, rowLength_gridSet]

theorem mem_rowMajorCells {g : Grid} {c : Nat × Nat} :
    c ∈ rowMajorCells g ↔ c.1 < (g.getD 0 []).length ∧ c.2 < g.length := by
  unfold rowMajorCells
  constructor
  · intro h
    obtain ⟨yy, hy, h2⟩ := List.mem_flatMap.mp h
    obtain ⟨xx, hx, h3⟩ := List.mem_map.mp h2
    rw [← h3]
    exact ⟨List.mem_range.mp hx, List.mem_range.mp hy⟩
  · intro ⟨h1, h2⟩
    exact List.mem_flatMap.mpr ⟨c.2, List.mem_range.mpr h2,
      List.mem_map.mpr ⟨c.1, List.mem_range.mpr h1, rfl⟩⟩

theorem rowMajorCells_nodup (g : Grid) : (rowMajorCells g).Nodup := by
  unfold rowMajorCells
  rw [List.nodup_flatMap]
  constructor
  · intro yy _
    exact (List.nodup_range _).map (fun a b h => by simpa using congrArg Prod.fst h)
  · apply List.Pairwise.imp ?_ (List.pairwise_lt_range _)
    intro a b hab
    intro c hc1 hc2
    obtain ⟨x1, _, h1⟩ := List.mem_map.mp hc1
    obtain ⟨x2, _, h2⟩ := List.mem_map.mp hc2
    have : a = b := by
      have h12 := h1.trans h2.symm
      simpa using congrArg Prod.snd h12
    exact absurd this (Nat.ne_of_lt hab)

theorem gridTotal_gridSet {g : Grid} {x y : Nat} (d : Domain)
    (hy : y < g.length) (hx : x < (g.getD y []).length) :
    gridTotal (gridSet g x y d) + (gridGet g x y).length =
      gridTotal g + d.length := by
  unfold gridTotal gridSet gridGet
  have houter := sum_map_set (fun row => (row.map List.length).sum) g y
    ((g.getD y []).set x d) [] hy
  have hinner := sum_map_set List.length (g.getD y []) x d [] hx
  dsimp only at houter
  omega



theorem Subgrid.refl (g : Grid) : Subgrid g g :=
  fun _ _ => ⟨fun _ ht => ht, Nat.le_refl _⟩

theorem Subgrid.trans {g3 g2 g : Grid} (h32 : Subgrid g3 g2)
    (h21 : Subgrid g2 g) : Subgrid g3 g :=
  fun x y => ⟨fun t ht => (h21 x y).1 t ((h32 x y).1 t ht),
    Nat.le_trans (h32 x y).2 (h21 x y).2⟩


theorem Covered.of_subgrid {tti : Nat → Option Nat} {g2 g : Grid}
    (hc : Covered tti g) (hs : Subgrid g2 g) : Covered tti g2 :=
  fun x y t ht => hc x y t ((hs x y).1 t ht)

/-! ### Characterisation of the entropy scan -/

/-- Invariant of the fold inside find_lowest_entropy_cell: either no cell so
far has more than one possibility and the candidate list is empty, or the
state holds the minimum size m of the multi-possibility cells seen so far and
exactly the cells of that size, in scan order. -/
theorem entropyFold_inv (g : Grid) (p : List (Nat × Nat)) :
    (let st := p.foldl (entropyUpdate g) (none, [])
     (st = (none, []) ∧ ∀ c ∈ p, (gridGet g c.1 c.2).length ≤ 1) ∨
     (∃ m, st.1 = some m ∧ 2 ≤ m ∧
       (∀ c ∈ p, 1 < (gridGet g c.1 c.2).length →
         m ≤ (gridGet g c.1 c.2).length) ∧
       st.2 = p.filter (fun c => decide ((gridGet g c.1 c.2).length = m)) ∧
       ∃ c ∈ p, (gridGet g c.1 c.2).length = m)) := by
  induction p using List.reverseRecOn with
  | nil => exact Or.inl ⟨rfl, by simp⟩
  | append_singleton p c ih =>
      simp only [List.foldl_append, List.foldl_cons, List.foldl_nil]
      rcases ih with ⟨hst, hall⟩ | ⟨m, hfst, hm2, hmin, hcands, hex⟩
      · simp only [hst]
        by_cases hn : 1 < (gridGet g c.1 c.2).length
        · right
          refine ⟨(gridGet g c.1 c.2).length, ?_⟩
          simp only [entropyUpdate, if_pos hn]
          refine ⟨by trivial, hn, ?_, ?_, ⟨c, by simp, rfl⟩⟩
          · intro d hd hd1
            rcases List.mem_append.mp hd with hdp | hdc
            · exact absurd hd1 (Nat.not_lt.mpr (hall d hdp))
            · rw [List.mem_singleton.mp hdc]
          · rw [List.filter_append]
            have h1 : p.filter (fun d => decide ((gridGet g d.1 d.2).length =
                (gridGet g c.1 c.2).length)) = [] := by
              apply List.filter_eq_nil_iff.mpr
              intro d hd
              simp only [decide_eq_true_eq]
              intro hlen
              exact absurd (hlen ▸ hn) (Nat.not_lt.mpr (hall d hd))
            simp [h1]
        · left
          simp only [entropyUpdate, if_neg hn]
          refine ⟨by trivial, ?_⟩
          intro d hd
          rcases List.mem_append.mp hd with hdp | hdc
          · exact hall d hdp
          · rw [List.mem_singleton.mp hdc]
            exact Nat.not_lt.mp hn
      · obtain ⟨cands, hpair⟩ : ∃ cands,
            p.foldl (entropyUpdate g) (none, []) = (some m, cands) := by
          refine ⟨(p.foldl (entropyUpdate g) (none, [])).2, ?_⟩
          rw [← hfst]
        rw [hpair] at hcands
        simp only at hcands
        rw [hpair]
        right
        by_cases hlt : 1 < (gridGet g c.1 c.2).length ∧
            (gridGet g c.1 c.2).length < m
        · refine ⟨(gridGet g c.1 c.2).length, ?_⟩
          simp only [entropyUpdate, if_pos hlt]
          refine ⟨by trivial, hlt.1, ?_, ?_, ⟨c, by simp, rfl⟩⟩
          · intro d hd hd1
            rcases List.mem_append.mp hd with hdp | hdc
            · exact Nat.le_trans (Nat.le_of_lt hlt.2) (hmin d hdp hd1)
            · rw [List.mem_singleton.mp hdc]
          · rw [List.filter_append]
            have h1 : p.filter (fun d => decide ((gridGet g d.1 d.2).length =
                (gridGet g c.1 c.2).length)) = [] := by
              apply List.filter_eq_nil_iff.mpr
              intro d hd
              simp only [decide_eq_true_eq]
              intro hlen
              have h2 : 1 < (gridGet g d.1 d.2).length := hlen ▸ hlt.1
              have := hmin d hd h2
              omega
            simp [h1]
        · by_cases heq : (gridGet g c.1 c.2).length = m
          · refine ⟨m, ?_⟩
            simp only [entropyUpdate, if_neg hlt, if_pos heq]
            refine ⟨by trivial, hm2, ?_, ?_, ⟨c, by simp, heq⟩⟩
            · intro d hd hd1
              rcases List.mem_append.mp hd with hdp | hdc
              · exact hmin d hdp hd1
              · rw [List.mem_singleton.mp hdc, heq]
            · rw [List.filter_append, hcands]
              simp [heq]
          · refine ⟨m, ?_⟩
            simp only [entropyUpdate, if_neg hlt, if_neg heq]
            refine ⟨by trivial, hm2, ?_, ?_, ?_⟩
            · intro d hd hd1
              rcases List.mem_append.mp hd with hdp | hdc
              · exact hmin d hdp hd1
              · rw [List.mem_singleton.mp hdc] at hd1 ⊢
                omega
            · rw [List.filter_append, hcands]
              simp [heq]
            · obtain ⟨d, hd, hdm⟩ := hex
              exact ⟨d, List.mem_append_left _ hd, hdm⟩

theorem entropyCandidates_eq_nil_iff (g : Grid) :
    entropyCandidates g = [] ↔
      ∀ c ∈ rowMajorCells g, (gridGet g c.1 c.2).length ≤ 1 := by
  unfold entropyCandidates
  rcases entropyFold_inv g (rowMajorCells g) with ⟨hst, hall⟩ |
    ⟨m, _, hm2, _, hcands, c, hc, hcm⟩
  · rw [hst]
    simpa using hall
  · rw [hcands]
    constructor
    · intro hnil
      have : c ∈ List.filter
          (fun c => decide ((gridGet g c.1 c.2).length = m)) (rowMajorCells g) :=
        List.mem_filter.mpr ⟨hc, by simp [hcm]⟩
      rw [hnil] at this
      simp at this
    · intro hall
      have := hall c hc
      omega

theorem mem_entropyCandidates {g : Grid} {c : Nat × Nat}
    (h : c ∈ entropyCandidates g) :
    c ∈ rowMajorCells g ∧ 1 < (gridGet g c.1 c.2).length ∧
      ∀ d ∈ rowMajorCells g, 1 < (gridGet g d.1 d.2).length →
        (gridGet g c.1 c.2).length ≤ (gridGet g d.1 d.2).length := by
  unfold entropyCandidates at h
  rcases entropyFold_inv g (rowMajorCells g) with ⟨hst, _⟩ |
    ⟨m, _, hm2, hmin, hcands, _⟩
  · rw [hst] at h
    simp at h
  · rw [hcands] at h
    have hmem := List.mem_filter.mp h
    have hcm : (gridGet g c.1 c.2).length = m := by
      have := hmem.2
      simpa using this
    exact ⟨hmem.1, by omega, fun d hd hd1 => hcm ▸ hmin d hd hd1⟩

theorem entropyCandidates_head {g : Grid} {c : Nat × Nat}
    (h : (entropyCandidates g).head? = some c) :
    ∃ s t, rowMajorCells g = s ++ c :: t ∧
      ∀ d ∈ s, (gridGet g d.1 d.2).length ≠ (gridGet g c.1 c.2).length := by
  unfold entropyCandidates at h
  rcases entropyFold_inv g (rowMajorCells g) with ⟨hst, _⟩ |
    ⟨m, _, _, _, hcands, _⟩
  · rw [hst] at h
    simp at h
  · rw [hcands] at h
    obtain ⟨s, t, hsplit, hpre, hc⟩ := head?_filter_split h
    have hcm : (gridGet g c.1 c.2).length = m := by simpa using hc
    refine ⟨s, t, hsplit, ?_⟩
    intro d hd
    have := hpre d hd
    simp only [decide_eq_false_iff_not] at this
    rw [hcm]
    exact this

theorem find_lowest_none_iff (g : Grid) (det : Bool) (rnd : Nat) :
    find_lowest_entropy_cell g det rnd = none ↔ entropyCandidates g = [] := by
  unfold find_lowest_entropy_cell
  cases det with
  | true =>
      simp only [if_pos rfl]
      exact List.head?_eq_none_iff
  | false =>
      simp only [Bool.false_eq_true, if_false]
      by_cases hemp : (entropyCandidates g).isEmpty
      · simp [hemp, List.isEmpty_iff.mp hemp]
      · simp only [hemp, Bool.false_eq_true, if_false]
        have hne : entropyCandidates g ≠ [] := by
          intro hnil
          rw [hnil] at hemp
          simp at hemp
        have hlt : rnd % (entropyCandidates g).length <
            (entropyCandidates g).length :=
          Nat.mod_lt _ (List.length_pos.mpr hne)
        constructor
        · intro hn
          rw [List.get?_eq_getElem?, List.getElem?_eq_getElem hlt] at hn
          simp at hn
        · intro hnil
          exact absurd hnil hne

theorem find_lowest_some_mem {g : Grid} {det : Bool} {rnd : Nat}
    {c : Nat × Nat} (h : find_lowest_entropy_cell g det rnd = some c) :
    c ∈ entropyCandidates g := by
  have aux : ∀ (l : List (Nat × Nat)) (d : Nat × Nat), l.head? = some d → d ∈ l := by
    intro l d hd
    cases l with
    | nil => simp at hd
    | cons a t =>
        simp only [List.head?_cons, Option.some.injEq] at hd
        rw [← hd]
        simp
  unfold find_lowest_entropy_cell at h
  cases det with
  | true =>
      simp only [if_pos rfl] at h
      exact aux _ _ h
  | false =>
      simp only [Bool.false_eq_true, if_false] at h
      by_cases hemp : (entropyCandidates g).isEmpty
      · simp [hemp] at h
      · simp only [hemp, Bool.false_eq_true, if_false] at h
        exact List.get?_mem h

theorem find_lowest_stoch_surj {g : Grid} {c : Nat × Nat}
    (h : c ∈ entropyCandidates g) :
    ∃ rnd, find_lowest_entropy_cell g false rnd = some c := by
  obtain ⟨i, hi, hget⟩ := mem_get?_of_mem h
  refine ⟨i, ?_⟩
  unfold find_lowest_entropy_cell
  have hne : ¬ (entropyCandidates g).isEmpty := by
    intro hemp
    rw [List.isEmpty_iff.mp hemp] at h
    simp at h
  simp only [Bool.false_eq_true, if_false, hne]
  rw [Nat.mod_eq_of_lt hi]
  exact hget


/-- C4: find_lowest_entropy_cell returns none exactly when no cell has more
than one possibility; any returned cell is an in-range cell of minimal
domain size among the cells of size greater than one (so never of size 0 or
1); in deterministic mode it is the first such cell in row-major order, and
in stochastic mode every tied minimal cell is obtainable for a suitable
draw of the random.choice oracle, which picks uniformly among the tied
candidate list entropyCandidates. -/
theorem c4_find_lowest_entropy_cell (g : Grid) (det : Bool) (rnd : Nat) :
    (find_lowest_entropy_cell g det rnd = none ↔
      ∀ c ∈ rowMajorCells g, (gridGet g c.1 c.2).length ≤ 1) ∧
    (∀ c, find_lowest_entropy_cell g det rnd = some c →
      c ∈ rowMajorCells g ∧ 1 < (gridGet g c.1 c.2).length ∧
      ∀ d ∈ rowMajorCells g, 1 < (gridGet g d.1 d.2).length →
        (gridGet g c.1 c.2).length ≤ (gridGet g d.1 d.2).length) ∧
    (∀ c, find_lowest_entropy_cell g true rnd = some c →
      ∃ s t, rowMajorCells g = s ++ c :: t ∧
        ∀ d ∈ s, 1 < (gridGet g d.1 d.2).length →
          (gridGet g c.1 c.2).length < (gridGet g d.1 d.2).length) ∧
    (∀ c ∈ entropyCandidates g, ∃ i,
      find_lowest_entropy_cell g false i = some c) := by
  refine ⟨?_, ?_, ?_, ?_⟩
  · rw [find_lowest_none_iff]
    exact entropyCandidates_eq_nil_iff g
  · intro c hc
    exact mem_entropyCandidates (find_lowest_some_mem hc)
  · intro c hc
    have hmem := find_lowest_some_mem hc
    have hminall := (mem_entropyCandidates hmem).2.2
    have hhead : (entropyCandidates g).head? = some c := by
      unfold find_lowest_entropy_cell at hc
      simpa using hc
    obtain ⟨s, t, hsplit, hne⟩ := entropyCandidates_head hhead
    refine ⟨s, t, hsplit, ?_⟩
    intro d hd hd1
    have hdmem : d ∈ rowMajorCells g := by
      rw [hsplit]
      exact List.mem_append_left _ hd
    have hle := hminall d hdmem hd1
    have := hne d hd
    omega
  · intro c hc
    exact find_lowest_stoch_surj hc

/-- Witness for C4 at a concrete 4-cell grid: the deterministic selection
returns the first minimal-entropy cell (0,0), of size 2. -/
theorem c4_find_lowest_entropy_cell_witness :
    find_lowest_entropy_cell gC4w true 0 = some (0, 0) ∧
    ((0, 0) ∈ rowMajorCells gC4w ∧
      1 < (gridGet gC4w 0 0).length ∧
      ∀ d ∈ rowMajorCells gC4w, 1 < (gridGet gC4w d.1 d.2).length →
        (gridGet gC4w 0 0).length ≤ (gridGet gC4w d.1 d.2).length) :=
  ⟨by decide, (c4_find_lowest_entropy_cell gC4w true 0).2.1 (0, 0) (by decide)⟩

/-! ### Characterisation of collapse_cell -/

/-- Invariant of the deterministic scan: either no symbol is in the domain
and the state is still (None, -inf), or the state holds the first symbol b of
maximal weight among the domain symbols: every earlier domain symbol weighs
strictly less and every later one weighs at most as much. -/
theorem detScan_inv (tile_symbols : List Nat) (possible : Domain)
    (tti : Nat → Option Nat) (probs : List ℚ) :
    (detScan tile_symbols possible tti probs = (none, none) ∧
      ∀ t ∈ tile_symbols, t ∉ possible) ∨
    (∃ b m p1 p2, detScan tile_symbols possible tti probs = (some b, some m) ∧
      tile_symbols = p1 ++ b :: p2 ∧ b ∈ possible ∧
      weightOf tti probs b = m ∧
      (∀ t ∈ p1, t ∈ possible → weightOf tti probs t < m) ∧
      (∀ t ∈ p2, t ∈ possible → weightOf tti probs t ≤ m)) := by
  induction tile_symbols using List.reverseRecOn with
  | nil => exact Or.inl ⟨rfl, by simp⟩
  | append_singleton p c ih =>
      unfold detScan
      simp only [List.foldl_append, List.foldl_cons, List.foldl_nil]
      rcases ih with ⟨hst, hall⟩ | ⟨b, m, p1, p2, hst, hsplit, hb, hw, hpre, hpost⟩
      · unfold detScan at hst
        rw [hst]
        by_cases hc : c ∈ possible
        · right
          refine ⟨c, weightOf tti probs c, p, [], ?_, rfl, hc, rfl, ?_, by simp⟩
          · simp [hc]
          · intro t ht _
            exact absurd (by assumption) (hall t ht)
        · left
          simp only [if_neg hc]
          exact ⟨by trivial, fun t ht => by
            rcases List.mem_append.mp ht with htp | htc
            · exact hall t htp
            · rw [List.mem_singleton.mp htc]; exact hc⟩
      · unfold detScan at hst
        rw [hst]
        by_cases hc : c ∈ possible
        · by_cases hlt : m < weightOf tti probs c
          · right
            refine ⟨c, weightOf tti probs c, p1 ++ b :: p2, [], ?_, by simp [hsplit],
              hc, rfl, ?_, by simp⟩
            · simp [hc, hlt]
            · intro t ht htp
              rcases List.mem_append.mp ht with ht1 | ht2
              · exact lt_trans (hpre t ht1 htp) hlt
              · rcases List.mem_cons.mp ht2 with htb | htb
                · rw [htb, hw]; exact hlt
                · exact lt_of_le_of_lt (hpost t htb htp) hlt
          · right
            refine ⟨b, m, p1, p2 ++ [c], ?_, by simp [hsplit], hb, hw, hpre, ?_⟩
            · simp [hc, hlt]
            · intro t ht htp
              rcases List.mem_append.mp ht with ht1 | ht2
              · exact hpost t ht1 htp
              · rw [List.mem_singleton.mp ht2]
                exact le_of_not_lt hlt
        · right
          refine ⟨b, m, p1, p2 ++ [c], ?_, by simp [hsplit], hb, hw, hpre, ?_⟩
          · simp [hc]
          · intro t ht htp
            rcases List.mem_append.mp ht with ht1 | ht2
            · exact hpost t ht1 htp
            · rw [List.mem_singleton.mp ht2] at htp
              exact absurd htp hc

/-- The epsilon is positive. -/
theorem wfcEps_pos : 0 < wfcEps := by norm_num [wfcEps]

theorem stochAccum_spec (tti : Nat → Option Nat) (probs : List ℚ)
    (possible : Domain) :
    (stochAccum tti probs possible).1 =
      (stochAccum tti probs possible).2.1.map
        (fun t => max 0 (weightOf tti probs t)) ∧
    (stochAccum tti probs possible).2.2 =
      ((stochAccum tti probs possible).2.1.map
        (fun t => max 0 (weightOf tti probs t))).sum ∧
    ∀ t ∈ (stochAccum tti probs possible).2.1,
      t ∈ possible ∧ wfcEps < max 0 (weightOf tti probs t) := by
  have aux : ∀ (l : List Nat) (vs : List Nat),
      (let a := l.foldl
        (fun acc tile =>
          let w := max 0 (weightOf tti probs tile)
          if wfcEps < w then (acc.1 ++ [w], acc.2.1 ++ [tile], acc.2.2 + w)
          else acc)
        (vs.map (fun t => max 0 (weightOf tti probs t)), vs,
          (vs.map (fun t => max 0 (weightOf tti probs t))).sum)
       a.1 = a.2.1.map (fun t => max 0 (weightOf tti probs t)) ∧
       a.2.2 = (a.2.1.map (fun t => max 0 (weightOf tti probs t))).sum ∧
       ∀ t ∈ a.2.1, t ∈ vs ∨
         (t ∈ l ∧ wfcEps < max 0 (weightOf tti probs t))) := by
    intro l
    induction l with
    | nil => intro vs; exact ⟨rfl, rfl, fun t ht => Or.inl ht⟩
    | cons c rest ih =>
        intro vs
        simp only [List.foldl_cons]
        by_cases hcw : wfcEps < max 0 (weightOf tti probs c)
        · simp only [if_pos hcw]
          have hrw : (vs.map (fun t => max 0 (weightOf tti probs t)) ++
              [max 0 (weightOf tti probs c)], vs ++ [c],
              (vs.map (fun t => max 0 (weightOf tti probs t))).sum +
                max 0 (weightOf tti probs c)) =
              ((vs ++ [c]).map (fun t => max 0 (weightOf tti probs t)),
               vs ++ [c],
               ((vs ++ [c]).map (fun t => max 0 (weightOf tti probs t))).sum) := by
            simp
          rw [hrw]
          obtain ⟨h1, h2, h3⟩ := ih (vs ++ [c])
          refine ⟨h1, h2, ?_⟩
          intro t ht
          rcases h3 t ht with hvs | ⟨hrest, hte⟩
          · rcases List.mem_append.mp hvs with hv | hc2
            · exact Or.inl hv
            · rw [List.mem_singleton.mp hc2]
              exact Or.inr ⟨by simp, hcw⟩
          · exact Or.inr ⟨List.mem_cons_of_mem _ hrest, hte⟩
        · simp only [if_neg hcw]
          obtain ⟨h1, h2, h3⟩ := ih vs
          refine ⟨h1, h2, ?_⟩
          intro t ht
          rcases h3 t ht with hvs | ⟨hrest, hte⟩
          · exact Or.inl hvs
          · exact Or.inr ⟨List.mem_cons_of_mem _ hrest, hte⟩
  have h := aux possible []
  simp only [List.map_nil, List.sum_nil] at h
  unfold stochAccum
  obtain ⟨h1, h2, h3⟩ := h
  refine ⟨h1, h2, ?_⟩
  intro t ht
  rcases h3 t ht with hf | ⟨hp, he⟩
  · simp at hf
  · exact ⟨hp, he⟩

theorem roulette_mem (r : ℚ) (cum : ℚ) (pairs : List (ℚ × Nat)) (dflt : Nat) :
    roulette r cum pairs dflt = dflt ∨
      roulette r cum pairs dflt ∈ pairs.map Prod.snd := by
  induction pairs generalizing cum with
  | nil => exact Or.inl rfl
  | cons p rest ih =>
      obtain ⟨w, t⟩ := p
      unfold roulette
      by_cases hr : r ≤ cum + w
      · simp only [if_pos hr]
        exact Or.inr (by simp)
      · simp only [if_neg hr]
        rcases ih (cum + w) with h | h
        · exact Or.inl h
        · exact Or.inr (List.mem_cons_of_mem _ h)

theorem map_snd_zip_map {α β : Type} (f : α → β) (l : List α) :
    ((l.map f).zip l).map Prod.snd = l := by
  induction l with
  | nil => rfl
  | cons a t ih => simp [ih]

theorem collapse_cell_empty (grid : Grid) (syms : List Nat)
    (tti : Nat → Option Nat) (x y : Nat) (probs : List ℚ) (det : Bool)
    (r : ℚ) (u : Nat) (h : gridGet grid x y = []) :
    collapse_cell grid syms tti x y probs det r u = (grid, none) := by
  simp only [collapse_cell]
  rw [if_pos h]

theorem collapse_cell_stoch_eq (grid : Grid) (syms : List Nat)
    (tti : Nat → Option Nat) (x y : Nat) (probs : List ℚ) (r : ℚ) (u : Nat)
    (h : gridGet grid x y ≠ []) :
    collapse_cell grid syms tti x y probs false r u =
      (let acc := stochAccum tti probs (gridGet grid x y)
       let chosen :=
         if wfcEps < acc.2.2 then
           roulette r 0 (acc.1.zip acc.2.1) (acc.2.1.getLastD 0)
         else (gridGet grid x y).getD (u % (gridGet grid x y).length) 0
       (gridSet grid x y [chosen], some chosen)) := by
  simp only [collapse_cell]
  rw [if_neg h]
  simp only [Bool.false_eq_true, if_false]

theorem collapse_cell_det_eq (grid : Grid) (syms : List Nat)
    (tti : Nat → Option Nat) (x y : Nat) (probs : List ℚ) (r : ℚ) (u : Nat)
    (h : gridGet grid x y ≠ []) (b : Nat) (m : ℚ)
    (hscan : detScan syms (gridGet grid x y) tti probs = (some b, some m)) :
    collapse_cell grid syms tti x y probs true r u =
      (if 0 < m then (gridSet grid x y [b], some b) else (grid, none)) := by
  simp only [collapse_cell]
  rw [if_neg h]
  simp only [if_true]
  rw [hscan]

theorem collapse_cell_det_nosym (grid : Grid) (syms : List Nat)
    (tti : Nat → Option Nat) (x y : Nat) (probs : List ℚ) (r : ℚ) (u : Nat)
    (h : gridGet grid x y ≠ [])
    (hscan : detScan syms (gridGet grid x y) tti probs = (none, none)) :
    collapse_cell grid syms tti x y probs true r u = (grid, none) := by
  simp only [collapse_cell]
  rw [if_neg h]
  simp only [if_true]
  rw [hscan]

theorem stoch_collapse_spec (grid : Grid) (syms : List Nat)
    (tti : Nat → Option Nat) (x y : Nat) (probs : List ℚ) (r : ℚ) (u : Nat)
    (h : gridGet grid x y ≠ []) :
    ∃ t, collapse_cell grid syms tti x y probs false r u =
        (gridSet grid x y [t], some t) ∧ t ∈ gridGet grid x y ∧
      (wfcEps < (stochAccum tti probs (gridGet grid x y)).2.2 →
        wfcEps < max 0 (weightOf tti probs t) ∧
        t ∈ (stochAccum tti probs (gridGet grid x y)).2.1) ∧
      (¬ wfcEps < (stochAccum tti probs (gridGet grid x y)).2.2 →
        t = (gridGet grid x y).getD (u % (gridGet grid x y).length) 0) := by
  obtain ⟨hws, htot, hmemp⟩ := stochAccum_spec tti probs (gridGet grid x y)
  rw [collapse_cell_stoch_eq grid syms tti x y probs r u h]
  by_cases hcase : wfcEps < (stochAccum tti probs (gridGet grid x y)).2.2
  · have hvs_ne : (stochAccum tti probs (gridGet grid x y)).2.1 ≠ [] := by
      intro hnil
      rw [hnil] at htot
      simp at htot
      rw [htot] at hcase
      exact absurd hcase (lt_asymm wfcEps_pos)
    simp only [if_pos hcase]
    set ch := roulette r 0
      ((stochAccum tti probs (gridGet grid x y)).1.zip
        (stochAccum tti probs (gridGet grid x y)).2.1)
      ((stochAccum tti probs (gridGet grid x y)).2.1.getLastD 0) with hch
    have hmem : ch ∈ (stochAccum tti probs (gridGet grid x y)).2.1 := by
      rw [hch, hws]
      rcases roulette_mem r 0
          (((stochAccum tti probs (gridGet grid x y)).2.1.map
            (fun t => max 0 (weightOf tti probs t))).zip
            (stochAccum tti probs (gridGet grid x y)).2.1)
          ((stochAccum tti probs (gridGet grid x y)).2.1.getLastD 0) with
        hd | hm
      · rw [hd]
        exact getLastD_mem hvs_ne 0
      · rw [map_snd_zip_map] at hm
        exact hm
    refine ⟨ch, rfl, (hmemp ch hmem).1, fun _ => ⟨(hmemp ch hmem).2, hmem⟩,
      fun hc => absurd hcase hc⟩
  · simp only [if_neg hcase]
    refine ⟨(gridGet grid x y).getD (u % (gridGet grid x y).length) 0, rfl,
      ?_, fun hc => absurd hc hcase, fun _ => rfl⟩
    exact getD_mem (Nat.mod_lt _ (List.length_pos.mpr h)) 0

theorem collapse_cases (grid : Grid) (syms : List Nat)
    (tti : Nat → Option Nat) (x y : Nat) (probs : List ℚ) (det : Bool)
    (r : ℚ) (u : Nat) :
    collapse_cell grid syms tti x y probs det r u = (grid, none) ∨
    ∃ t, t ∈ gridGet grid x y ∧ gridGet grid x y ≠ [] ∧
      collapse_cell grid syms tti x y probs det r u =
        (gridSet grid x y [t], some t) := by
  by_cases hne : gridGet grid x y = []
  · exact Or.inl (collapse_cell_empty grid syms tti x y probs det r u hne)
  · cases det with
    | true =>
        rcases detScan_inv syms (gridGet grid x y) tti probs with
          ⟨hscan, _⟩ | ⟨b, m, _, _, hscan, _, hb, _, _, _⟩
        · exact Or.inl (collapse_cell_det_nosym grid syms tti x y probs r u
            hne hscan)
        · rw [collapse_cell_det_eq grid syms tti x y probs r u hne b m hscan]
          by_cases hm : 0 < m
          · exact Or.inr ⟨b, hb, hne, by rw [if_pos hm]⟩
          · exact Or.inl (by rw [if_neg hm])
    | false =>
        obtain ⟨t, heq, hmem, _, _⟩ :=
          stoch_collapse_spec grid syms tti x y probs r u hne
        exact Or.inr ⟨t, hmem, hne, heq⟩

theorem collapse_none_eq {grid : Grid} {syms : List Nat}
    {tti : Nat → Option Nat} {x y : Nat} {probs : List ℚ} {det : Bool}
    {r : ℚ} {u : Nat}
    (h : (collapse_cell grid syms tti x y probs det r u).2 = none) :
    collapse_cell grid syms tti x y probs det r u = (grid, none) := by
  rcases collapse_cases grid syms tti x y probs det r u with heq | ⟨t, _, _, heq⟩
  · exact heq
  · rw [heq] at h
    simp at h

theorem collapse_some_eq {grid : Grid} {syms : List Nat}
    {tti : Nat → Option Nat} {x y : Nat} {probs : List ℚ} {det : Bool}
    {r : ℚ} {u : Nat} {t : Nat}
    (h : (collapse_cell grid syms tti x y probs det r u).2 = some t) :
    t ∈ gridGet grid x y ∧ gridGet grid x y ≠ [] ∧
      collapse_cell grid syms tti x y probs det r u =
        (gridSet grid x y [t], some t) := by
  rcases collapse_cases grid syms tti x y probs det r u with heq | ⟨s, hs, hne, heq⟩
  · rw [heq] at h
    simp at h
  · rw [heq] at h
    simp only [Option.some.injEq] at h
    rw [← h]
    exact ⟨hs, hne, heq⟩

/-- C3: on a non-empty domain whose tiles all belong to the catalog,
deterministic collapse_cell selects the first catalog tile b of maximal
weight among the domain tiles (every earlier domain tile weighs strictly
less, every later one at most as much); if that winning weight is positive
the cell becomes the singleton [b] and b is returned, and otherwise the call
returns the failure signal None with the whole grid unchanged, with no
fallback; and whenever the collapse of the selector cell returns None,
biome_wfc_step returns the unchanged grid with terminated = false and
truncated = true. -/
theorem c3_collapse_cell_deterministic (grid : Grid) (tile_symbols : List Nat)
    (tti : Nat → Option Nat) (x y : Nat) (probs : List ℚ) (r : ℚ) (u : Nat)
    (hne : gridGet grid x y ≠ [])
    (hsub : ∀ t ∈ gridGet grid x y, t ∈ tile_symbols) :
    (∃ b m p1 p2, tile_symbols = p1 ++ b :: p2 ∧ b ∈ gridGet grid x y ∧
      weightOf tti probs b = m ∧
      (∀ t ∈ p1, t ∈ gridGet grid x y → weightOf tti probs t < m) ∧
      (∀ t ∈ p2, t ∈ gridGet grid x y → weightOf tti probs t ≤ m) ∧
      (0 < m → collapse_cell grid tile_symbols tti x y probs true r u =
        (gridSet grid x y [b], some b)) ∧
      (m ≤ 0 → collapse_cell grid tile_symbols tti x y probs true r u =
        (grid, none))) ∧
    (∀ (adj : Adjacency) (selR selR2 : Nat) (fuel : Nat) (x2 y2 : Nat),
      find_lowest_entropy_cell grid true selR = some (x2, y2) →
      (collapse_cell grid tile_symbols tti x2 y2 probs true r u).2 = none →
      biome_wfc_step adj tile_symbols tti probs true selR selR2 r u fuel grid =
        some (.ok grid false true)) := by
  constructor
  · obtain ⟨t0, ht0⟩ := List.exists_mem_of_ne_nil _ hne
    rcases detScan_inv tile_symbols (gridGet grid x y) tti probs with
      ⟨_, hall⟩ | ⟨b, m, p1, p2, hscan, hsplit, hb, hw, hpre, hpost⟩
    · exact absurd ht0 (hall t0 (hsub t0 ht0))
    · refine ⟨b, m, p1, p2, hsplit, hb, hw, hpre, hpost, ?_, ?_⟩
      · intro hm
        rw [collapse_cell_det_eq grid tile_symbols tti x y probs r u hne b m
          hscan, if_pos hm]
      · intro hm
        rw [collapse_cell_det_eq grid tile_symbols tti x y probs r u hne b m
          hscan, if_neg (not_lt.mpr hm)]
  · intro adj selR selR2 fuel x2 y2 hfind hcoll
    have hc := collapse_none_eq hcoll
    unfold biome_wfc_step
    rw [hfind]
    dsimp only
    rw [hc]

/-- Witness for C3: catalog [0, 1], domain [0, 1], weights [1, 2]; the
winner is tile 1 of weight 2. -/
theorem c3_collapse_cell_deterministic_witness :
    ∃ b m p1 p2, ([0, 1] : List Nat) = p1 ++ b :: p2 ∧
      b ∈ gridGet [[[0, 1]]] 0 0 ∧
      weightOf ttiTwo [1, 2] b = m ∧
      (∀ t ∈ p1, t ∈ gridGet [[[0, 1]]] 0 0 →
        weightOf ttiTwo [1, 2] t < m) ∧
      (∀ t ∈ p2, t ∈ gridGet [[[0, 1]]] 0 0 →
        weightOf ttiTwo [1, 2] t ≤ m) ∧
      (0 < m → collapse_cell [[[0, 1]]] [0, 1] ttiTwo 0 0 [1, 2] true 0 0 =
        (gridSet [[[0, 1]]] 0 0 [b], some b)) ∧
      (m ≤ 0 → collapse_cell [[[0, 1]]] [0, 1] ttiTwo 0 0 [1, 2] true 0 0 =
        ([[[0, 1]]], none)) :=
  (c3_collapse_cell_deterministic [[[0, 1]]] [0, 1] ttiTwo 0 0 [1, 2] 0 0
    (by decide) (by decide)).1

/-- C7: on a non-empty domain, stochastic collapse_cell always succeeds:
some tile t of the prior domain is chosen, the cell becomes the singleton
[t] and t is returned (never None); when the accumulated total of the
clamped weights exceeds the 1e-9 threshold the tile comes from the roulette
over the tiles of positive (above-threshold) clamped weight, and otherwise
the tile is the uniform-oracle pick over the full unweighted domain. -/
theorem c7_collapse_cell_stochastic (grid : Grid) (tile_symbols : List Nat)
    (tti : Nat → Option Nat) (x y : Nat) (probs : List ℚ) (r : ℚ) (u : Nat)
    (hne : gridGet grid x y ≠ []) :
    ∃ t, collapse_cell grid tile_symbols tti x y probs false r u =
        (gridSet grid x y [t], some t) ∧
      t ∈ gridGet grid x y ∧
      (wfcEps < (stochAccum tti probs (gridGet grid x y)).2.2 →
        wfcEps < max 0 (weightOf tti probs t) ∧
        t ∈ (stochAccum tti probs (gridGet grid x y)).2.1) ∧
      (¬ wfcEps < (stochAccum tti probs (gridGet grid x y)).2.2 →
        t = (gridGet grid x y).getD (u % (gridGet grid x y).length) 0) :=
  stoch_collapse_spec grid tile_symbols tti x y probs r u hne

/-- Witness for C7: all weights zero, so the uniform fallback fires and
still collapses the cell to one tile of the prior domain. -/
theorem c7_collapse_cell_stochastic_witness :
    ∃ t, collapse_cell [[[0, 1]]] [0, 1] ttiTwo 0 0 [0, 0] false 0 1 =
        (gridSet [[[0, 1]]] 0 0 [t], some t) ∧
      t ∈ gridGet [[[0, 1]]] 0 0 ∧
      (wfcEps < (stochAccum ttiTwo [0, 0] (gridGet [[[0, 1]]] 0 0)).2.2 →
        wfcEps < max 0 (weightOf ttiTwo [0, 0] t) ∧
        t ∈ (stochAccum ttiTwo [0, 0] (gridGet [[[0, 1]]] 0 0)).2.1) ∧
      (¬ wfcEps < (stochAccum ttiTwo [0, 0] (gridGet [[[0, 1]]] 0 0)).2.2 →
        t = (gridGet [[[0, 1]]] 0 0).getD
          (1 % (gridGet [[[0, 1]]] 0 0).length) 0) :=
  c7_collapse_cell_stochastic [[[0, 1]]] [0, 1] ttiTwo 0 0 [0, 0] 0 1
    (by decide)

/-- Counterexample for C8: the value collapse_cell returns on an
already-empty domain equals the value it returns on a failed deterministic
collapse (both are None), so the two outcomes are not distinguishable. -/
theorem c8_counterexample :
    (collapse_cell [[[]]] [0, 1] ttiTwo 0 0 [1, 0] true 0 0).2 =
      (collapse_cell [[[0, 1]]] [0, 1] ttiTwo 0 0 [0, 0] true 0 0).2 := by
  decide

/-- C8 as amended: calling collapse_cell on an already-empty domain is a
no-op that returns None with the grid unchanged — the same None value a
failed deterministic collapse returns, so the caller cannot tell the two
outcomes apart. -/
theorem c8_collapse_cell_empty_domain (grid : Grid) (tile_symbols : List Nat)
    (tti : Nat → Option Nat) (x y : Nat) (probs : List ℚ) (det : Bool)
    (r : ℚ) (u : Nat) (h : gridGet grid x y = []) :
    collapse_cell grid tile_symbols tti x y probs det r u = (grid, none) :=
  collapse_cell_empty grid tile_symbols tti x y probs det r u h

/-- Witness for C8 at a concrete empty-domain cell. -/
theorem c8_collapse_cell_empty_domain_witness :
    collapse_cell [[[]]] [0, 1] ttiTwo 0 0 [1, 0] true 0 0 = ([[[]]], none) :=
  c8_collapse_cell_empty_domain [[[]]] [0, 1] ttiTwo 0 0 [1, 0] true 0 0
    (by decide)

/-- Counterexample for C9: a tile-to-index mapping with no entry at all is
malformed weight input, yet stochastic collapse_cell is not rejected: it
silently reads weight 0.0 for both tiles and still collapses the cell. -/
theorem c9_counterexample :
    collapse_cell [[[0, 1]]] [0, 1] (fun _ => none) 0 0 [5, 5] false 0 0 =
        ([[[0]]], some 0) ∧
      weightOf (fun _ => none) [5, 5] 0 = 0 ∧
      weightOf ttiTwo [] 1 = 0 := by
  constructor
  · decide
  · constructor
    · rfl
    · rfl

/-- C9 as amended: collapse_cell does not validate its weight input.  A
tile missing from tile_to_index, or whose index lies outside action_probs,
is silently given weight 0.0, and the collapse proceeds: in stochastic mode
a non-empty domain still collapses to one of its tiles whatever the
mapping and weight vector. -/
theorem c9_weight_defaulting :
    (∀ (tti : Nat → Option Nat) (probs : List ℚ) (t : Nat),
      tti t = none → weightOf tti probs t = 0) ∧
    (∀ (tti : Nat → Option Nat) (probs : List ℚ) (t i : Nat),
      tti t = some i → probs.length ≤ i → weightOf tti probs t = 0) ∧
    (∀ (grid : Grid) (tile_symbols : List Nat) (tti : Nat → Option Nat)
      (x y : Nat) (probs : List ℚ) (r : ℚ) (u : Nat),
      gridGet grid x y ≠ [] →
      ∃ t, t ∈ gridGet grid x y ∧
        collapse_cell grid tile_symbols tti x y probs false r u =
          (gridSet grid x y [t], some t)) := by
  refine ⟨?_, ?_, ?_⟩
  · intro tti probs t h
    unfold weightOf
    rw [h]
  · intro tti probs t i h hlen
    unfold weightOf
    rw [h]
    simp only [if_neg (not_lt.mpr hlen)]
  · intro grid tile_symbols tti x y probs r u hne
    obtain ⟨t, heq, hmem, _, _⟩ :=
      stoch_collapse_spec grid tile_symbols tti x y probs r u hne
    exact ⟨t, hmem, heq⟩

/-- Witness for C9 as amended, at a missing mapping entry and a too-short
weight vector. -/
theorem c9_weight_defaulting_witness :
    weightOf (fun _ => none) [5, 5] 7 = 0 ∧
    weightOf ttiTwo [] 1 = 0 ∧
    (∃ t, t ∈ gridGet [[[0, 1]]] 0 0 ∧
      collapse_cell [[[0, 1]]] [0, 1] (fun _ => none) 0 0 [5, 5] false 0 0 =
        (gridSet [[[0, 1]]] 0 0 [t], some t)) :=
  ⟨c9_weight_defaulting.1 (fun _ => none) [5, 5] 7 rfl,
   c9_weight_defaulting.2.1 ttiTwo [] 1 1 (by decide) (by decide),
   c9_weight_defaulting.2.2 [[[0, 1]]] [0, 1] (fun _ => none) 0 0 [5, 5] 0 0
     (by decide)⟩

/-! ### Support computation of the propagator -/

theorem isSupported_eq_supportedB (adj : Adjacency) (tti : Nat → Option Nat)
    (dirIdx nIdx : Nat) (curr : List Nat)
    (hcur : ∀ c ∈ curr, (tti c).isSome) :
    isSupported adj tti dirIdx nIdx curr =
      some (supportedB adj tti curr dirIdx nIdx) := by
  induction curr with
  | nil => rfl
  | cons c cs ih =>
      have hc := hcur c (List.mem_cons_self c cs)
      obtain ⟨cIdx, hcIdx⟩ := Option.isSome_iff_exists.mp hc
      have ihr := ih fun t ht => hcur t (List.mem_cons_of_mem _ ht)
      unfold isSupported
      rw [hcIdx]
      dsimp only
      by_cases hb : cIdx < adj.s0 ∧ dirIdx < adj.s1 ∧ nIdx < adj.s2
      · rw [if_pos hb]
        by_cases hrel : adj.rel cIdx dirIdx nIdx = true
        · rw [if_pos hrel]
          unfold supportedB
          simp [List.any_cons, hcIdx, hb.1, hb.2.1, hb.2.2, hrel]
        · have hrel2 : adj.rel cIdx dirIdx nIdx = false := by simpa using hrel
          rw [if_neg hrel, ihr]
          unfold supportedB
          simp [List.any_cons, hcIdx, hrel2]
      · rw [if_neg hb, ihr]
        have hhead : (match tti c with
            | some cIdx =>
                decide (cIdx < adj.s0) && decide (dirIdx < adj.s1) &&
                  decide (nIdx < adj.s2) && adj.rel cIdx dirIdx nIdx
            | none => false) = false := by
          rw [hcIdx]
          rcases not_and_or.mp hb with h1 | h23
          · simp [h1]
          · rcases not_and_or.mp h23 with h2 | h3
            · simp [h2]
            · simp [h3]
        unfold supportedB
        rw [List.any_cons]
        simp [hhead]

theorem removedOptions_eq_filter (adj : Adjacency) (tti : Nat → Option Nat)
    (curr : Domain) (dirIdx : Nat) (orig : List Nat)
    (hcur : ∀ c ∈ curr, (tti c).isSome)
    (horig : ∀ t ∈ orig, (tti t).isSome) :
    removedOptions adj tti curr dirIdx orig =
      some (orig.filter (unsupB adj tti curr dirIdx)) := by
  induction orig with
  | nil => rfl
  | cons nt rest ih =>
      have hnt := horig nt (List.mem_cons_self nt rest)
      obtain ⟨nIdx, hnIdx⟩ := Option.isSome_iff_exists.mp hnt
      have ihr := ih fun t ht => horig t (List.mem_cons_of_mem _ ht)
      unfold removedOptions
      rw [hnIdx]
      dsimp only
      rw [isSupported_eq_supportedB adj tti dirIdx nIdx curr hcur]
      by_cases hs : supportedB adj tti curr dirIdx nIdx = true
      · rw [hs]
        dsimp only
        rw [ihr, List.filter_cons]
        have hu : unsupB adj tti curr dirIdx nt = false := by
          simp [unsupB, hnIdx, hs]
        rw [hu]
        simp
      · have hs2 : supportedB adj tti curr dirIdx nIdx = false := by
          simpa using hs
        rw [hs2]
        dsimp only
        rw [ihr]
        have hu : unsupB adj tti curr dirIdx nt = true := by
          simp [unsupB, hnIdx, hs2]
        rw [List.filter_cons, hu]
        simp

/-! ### Geometry helpers for the propagator -/

theorem nbr_ne {c : Nat × Nat} {d : Nat × Int × Int} (hd : d ∈ dirList)
    (h0 : 0 ≤ (c.1 : Int) + d.2.1) (h1 : 0 ≤ (c.2 : Int) + d.2.2) :
    nbr c d ≠ c := by
  simp only [dirList, List.mem_cons, List.not_mem_nil, or_false] at hd
  rcases hd with rfl | rfl | rfl | rfl <;>
    · intro hcontra
      rw [Prod.ext_iff] at hcontra
      obtain ⟨hx, hy⟩ := hcontra
      simp only [nbr] at hx hy
      simp only at h0 h1
      omega

theorem Rect.row_len {g : Grid} {W H : Nat} (h : Rect g W H) {y : Nat}
    (hy : y < H) : (g.getD y []).length = W := by
  have hyl : y < g.length := h.1 ▸ hy
  rw [List.getD_eq_getElem?_getD, List.getElem?_eq_getElem hyl]
  exact h.2 _ (List.getElem_mem hyl)

theorem Rect_gridSet {g : Grid} {W H : Nat} (h : Rect g W H) (x y : Nat)
    (d : Domain) : Rect (gridSet g x y d) W H := by
  by_cases hy : y < g.length
  · constructor
    · rw [length_gridSet]
      exact h.1
    · intro row hrow
      unfold gridSet at hrow
      rcases List.mem_or_eq_of_mem_set hrow with hmem | heq
      · exact h.2 row hmem
      · rw [heq, List.length_set]
        rw [List.getD_eq_getElem?_getD, List.getElem?_eq_getElem hy]
        exact h.2 _ (List.getElem_mem hy)
  · unfold gridSet
    rw [List.set_eq_of_length_le (Nat.le_of_not_lt hy)]
    exact h

theorem nbr_bounds {W H : Nat} {c : Nat × Nat} {d : Nat × Int × Int}
    (hok : nbrOk W H c d) : (nbr c d).1 < W ∧ (nbr c d).2 < H := by
  obtain ⟨h0, h1, h2, h3⟩ := hok
  unfold nbr
  constructor <;> simp only <;> omega

theorem gridGet_gridSet_oob {g : Grid} {x y : Nat} (d : Domain)
    (h : ¬(y < g.length ∧ x < (g.getD y []).length)) :
    gridGet (gridSet g x y d) x y = gridGet g x y := by
  by_cases hy : y < g.length
  · have hx : ¬ x < (g.getD y []).length := fun hx => h ⟨hy, hx⟩
    unfold gridGet gridSet
    rw [getD_set_self hy, List.set_eq_of_length_le (Nat.le_of_not_lt hx)]
  · unfold gridGet gridSet
    rw [List.set_eq_of_length_le (Nat.le_of_not_lt hy)]

theorem subgrid_gridSet {g : Grid} {x y : Nat} {d : Domain}
    (hmem : ∀ t ∈ d, t ∈ gridGet g x y)
    (hlen : d.length ≤ (gridGet g x y).length) :
    Subgrid (gridSet g x y d) g := by
  intro a b
  by_cases hab : a = x ∧ b = y
  · obtain ⟨rfl, rfl⟩ := hab
    by_cases hbd : b < g.length ∧ a < (g.getD b []).length
    · rw [gridGet_gridSet_self d hbd.1 hbd.2]
      exact ⟨hmem, hlen⟩
    · rw [gridGet_gridSet_oob d hbd]
      exact ⟨fun t ht => ht, Nat.le_refl _⟩
  · rw [gridGet_gridSet_ne d hab]
    exact ⟨fun t ht => ht, Nat.le_refl _⟩

theorem ArcSat_mono {adj : Adjacency} {tti : Nat → Option Nat} {g2 g : Grid}
    {src tgt : Nat × Nat} {i : Nat}
    (hsrc : gridGet g2 src.1 src.2 = gridGet g src.1 src.2)
    (htgt : ∀ t ∈ gridGet g2 tgt.1 tgt.2, t ∈ gridGet g tgt.1 tgt.2)
    (h : ArcSat adj tti g src tgt i) : ArcSat adj tti g2 src tgt i := by
  intro t ht
  obtain ⟨nIdx, hn, hsup⟩ := h t (htgt t ht)
  exact ⟨nIdx, hn, by rw [hsrc]; exact hsup⟩

theorem ArcSat_of_empty_target {adj : Adjacency} {tti : Nat → Option Nat}
    {g : Grid} {src tgt : Nat × Nat} {i : Nat}
    (h : gridGet g tgt.1 tgt.2 = []) : ArcSat adj tti g src tgt i := by
  intro t ht
  rw [h] at ht
  simp at ht

theorem supported_of_not_unsup {adj : Adjacency} {tti : Nat → Option Nat}
    {curr : Domain} {dirIdx t nIdx : Nat} (hn : tti t = some nIdx)
    (hu : unsupB adj tti curr dirIdx t = false) :
    supportedB adj tti curr dirIdx nIdx = true := by
  unfold unsupB at hu
  rw [hn] at hu
  simpa using hu

theorem processDirs_basic (adj : Adjacency) (tti : Nat → Option Nat)
    (W H cx cy : Nat) (curr : Domain) :
    ∀ (ds : List (Nat × Int × Int)) (g : Grid) (st : List (Nat × Nat))
      (g2 : Grid) (st2 : List (Nat × Nat)),
      processDirs adj tti W H cx cy curr ds g st = .ok g2 st2 →
      (∀ d ∈ ds, d ∈ dirList) →
      Subgrid g2 g ∧
      (∀ a b : Nat, gridGet g a b ≠ [] → gridGet g2 a b ≠ []) ∧
      gridGet g2 cx cy = gridGet g cx cy ∧
      (∀ c ∈ st, c ∈ st2) ∧
      (∀ c ∈ st2, c ∈ st ∨ (c.1 < W ∧ c.2 < H)) ∧
      2 * gridTotal g2 + st2.length ≤ 2 * gridTotal g + st.length ∧
      (Rect g W H → Rect g2 W H) := by
  intro ds
  induction ds with
  | nil =>
      intro g st g2 st2 heq hds
      simp only [processDirs] at heq
      obtain ⟨rfl, rfl⟩ : g = g2 ∧ st = st2 := by
        cases heq
        exact ⟨rfl, rfl⟩
      exact ⟨Subgrid.refl g, fun a b h => h, rfl, fun c hc => hc,
        fun c hc => Or.inl hc, Nat.le_refl _, id⟩
  | cons d0 rest ih =>
      intro g st g2 st2 heq hds
      obtain ⟨dirIdx, dx, dy⟩ := d0
      have hd0 : (dirIdx, dx, dy) ∈ dirList := hds _ (List.mem_cons_self _ _)
      have hds2 : ∀ d ∈ rest, d ∈ dirList :=
        fun d hd => hds d (List.mem_cons_of_mem _ hd)
      simp only [processDirs] at heq
      by_cases hcond : 0 ≤ (cx : Int) + dx ∧ (cx : Int) + dx < (W : Int) ∧
          0 ≤ (cy : Int) + dy ∧ (cy : Int) + dy < (H : Int)
      · rw [if_pos hcond] at heq
        set nx := ((cx : Int) + dx).toNat with hnx
        set ny := ((cy : Int) + dy).toNat with hny
        by_cases horig : gridGet g nx ny = []
        · rw [if_pos horig] at heq
          exact ih g st g2 st2 heq hds2
        · rw [if_neg horig] at heq
          cases hro : removedOptions adj tti curr dirIdx (gridGet g nx ny) with
          | none =>
              rw [hro] at heq
              simp at heq
          | some removed =>
              rw [hro] at heq
              dsimp only at heq
              by_cases hrem : removed = []
              · rw [if_pos hrem] at heq
                exact ih g st g2 st2 heq hds2
              · rw [if_neg hrem] at heq
                by_cases hnew :
                    (gridGet g nx ny).filter (fun t => t ∉ removed) = []
                · rw [if_pos hnew] at heq
                  simp at heq
                · rw [if_neg hnew] at heq
                  by_cases hlt :
                      ((gridGet g nx ny).filter (fun t => t ∉ removed)).length <
                        (gridGet g nx ny).length
                  · rw [if_pos hlt] at heq
                    set newPoss := (gridGet g nx ny).filter
                      (fun t => t ∉ removed) with hnp
                    set stMid := if (nx, ny) ∈ st then st else (nx, ny) :: st
                      with hsm
                    have hb := gridGet_ne_nil_bounds horig
                    have hsub1 : Subgrid (gridSet g nx ny newPoss) g :=
                      subgrid_gridSet
                        (fun t ht => (List.mem_filter.mp ht).1)
                        (List.length_filter_le _ _)
                    obtain ⟨ihsub, ihne, ihcc, ihst, ihstb, ihms, ihrect⟩ :=
                      ih _ _ g2 st2 heq hds2
                    have hnbr : nbr (cx, cy) (dirIdx, dx, dy) = (nx, ny) := by
                      unfold nbr
                      rw [hnx, hny]
                    refine ⟨ihsub.trans hsub1, ?_, ?_, ?_, ?_, ?_, ?_⟩
                    · intro a b hab
                      apply ihne
                      by_cases habn : a = nx ∧ b = ny
                      · obtain ⟨rfl, rfl⟩ := habn
                        rw [gridGet_gridSet_self newPoss hb.1 hb.2]
                        exact hnew
                      · rw [gridGet_gridSet_ne newPoss habn]
                        exact hab
                    · have hne2 : nbr (cx, cy) (dirIdx, dx, dy) ≠ (cx, cy) :=
                        nbr_ne hd0 hcond.1 hcond.2.2.1
                      have hccstep :
                          gridGet (gridSet g nx ny newPoss) cx cy =
                            gridGet g cx cy := by
                        apply gridGet_gridSet_ne
                        intro hcc
                        apply hne2
                        rw [hnbr]
                        exact Prod.ext hcc.1.symm hcc.2.symm
                      rw [ihcc, hccstep]
                    · intro c hc
                      apply ihst
                      rw [hsm]
                      by_cases hmem : (nx, ny) ∈ st
                      · rw [if_pos hmem]
                        exact hc
                      · rw [if_neg hmem]
                        exact List.mem_cons_of_mem _ hc
                    · intro c hc
                      rcases ihstb c hc with hmid | hbnd
                      · rw [hsm] at hmid
                        by_cases hmem : (nx, ny) ∈ st
                        · rw [if_pos hmem] at hmid
                          exact Or.inl hmid
                        · rw [if_neg hmem] at hmid
                          rcases List.mem_cons.mp hmid with hceq | hcs
                          · right
                            rw [hceq]
                            refine ⟨?_, ?_⟩ <;> simp only [hnx, hny] <;> omega
                          · exact Or.inl hcs
                      · exact Or.inr hbnd
                    · have htot := gridTotal_gridSet newPoss hb.1 hb.2
                      have hmidlen : stMid.length ≤ st.length + 1 := by
                        rw [hsm]
                        by_cases hmem : (nx, ny) ∈ st
                        · rw [if_pos hmem]
                          omega
                        · rw [if_neg hmem]
                          simp
                      omega
                    · intro hrect
                      exact ihrect (Rect_gridSet hrect nx ny newPoss)
                  · rw [if_neg hlt] at heq
                    exact ih g st g2 st2 heq hds2
      · rw [if_neg hcond] at heq
        exact ih g st g2 st2 heq hds2

theorem processDirs_contra (adj : Adjacency) (tti : Nat → Option Nat)
    (W H cx cy : Nat) (curr : Domain) :
    ∀ (ds : List (Nat × Int × Int)) (g : Grid) (st : List (Nat × Nat))
      (g2 : Grid),
      processDirs adj tti W H cx cy curr ds g st = .contra g2 →
      Subgrid g2 g ∧ ∃ a b, gridGet g a b ≠ [] ∧ gridGet g2 a b = [] := by
  intro ds
  induction ds with
  | nil =>
      intro g st g2 heq
      simp only [processDirs] at heq
      exact absurd heq (by simp)
  | cons d0 rest ih =>
      intro g st g2 heq
      obtain ⟨dirIdx, dx, dy⟩ := d0
      simp only [processDirs] at heq
      by_cases hcond : 0 ≤ (cx : Int) + dx ∧ (cx : Int) + dx < (W : Int) ∧
          0 ≤ (cy : Int) + dy ∧ (cy : Int) + dy < (H : Int)
      · rw [if_pos hcond] at heq
        set nx := ((cx : Int) + dx).toNat with hnx
        set ny := ((cy : Int) + dy).toNat with hny
        by_cases horig : gridGet g nx ny = []
        · rw [if_pos horig] at heq
          exact ih g st g2 heq
        · rw [if_neg horig] at heq
          cases hro : removedOptions adj tti curr dirIdx (gridGet g nx ny) with
          | none =>
              rw [hro] at heq
              simp at heq
          | some removed =>
              rw [hro] at heq
              dsimp only at heq
              by_cases hrem : removed = []
              · rw [if_pos hrem] at heq
                exact ih g st g2 heq
              · rw [if_neg hrem] at heq
                by_cases hnew :
                    (gridGet g nx ny).filter (fun t => t ∉ removed) = []
                · rw [if_pos hnew] at heq
                  have hb := gridGet_ne_nil_bounds horig
                  have hg2 : g2 = gridSet g nx ny [] := by
                    cases heq
                    rfl
                  subst hg2
                  refine ⟨subgrid_gridSet (by simp) (by simp), nx, ny, horig, ?_⟩
                  rw [gridGet_gridSet_self [] hb.1 hb.2]
                · rw [if_neg hnew] at heq
                  by_cases hlt :
                      ((gridGet g nx ny).filter (fun t => t ∉ removed)).length <
                        (gridGet g nx ny).length
                  · rw [if_pos hlt] at heq
                    have hb := gridGet_ne_nil_bounds horig
                    have hsub1 : Subgrid
                        (gridSet g nx ny ((gridGet g nx ny).filter
                          (fun t => t ∉ removed))) g :=
                      subgrid_gridSet
                        (fun t ht => (List.mem_filter.mp ht).1)
                        (List.length_filter_le _ _)
                    obtain ⟨ihsub, a, b, hne, hemp⟩ := ih _ _ g2 heq
                    refine ⟨ihsub.trans hsub1, a, b, ?_, hemp⟩
                    obtain ⟨t, ht⟩ := List.exists_mem_of_ne_nil _ hne
                    have := (hsub1 a b).1 t ht
                    exact fun hcontra => by
                      rw [hcontra] at this
                      simp at this
                  · rw [if_neg hlt] at heq
                    exact ih g st g2 heq
      · rw [if_neg hcond] at heq
        exact ih g st g2 heq

theorem processDirs_noerr (adj : Adjacency) (tti : Nat → Option Nat)
    (W H cx cy : Nat) (curr : Domain) (hcur : ∀ t ∈ curr, (tti t).isSome) :
    ∀ (ds : List (Nat × Int × Int)) (g : Grid) (st : List (Nat × Nat)),
      Covered tti g →
      processDirs adj tti W H cx cy curr ds g st ≠ .err := by
  intro ds
  induction ds with
  | nil =>
      intro g st _ heq
      simp only [processDirs] at heq
      exact absurd heq (by simp)
  | cons d0 rest ih =>
      intro g st hcov heq
      obtain ⟨dirIdx, dx, dy⟩ := d0
      simp only [processDirs] at heq
      by_cases hcond : 0 ≤ (cx : Int) + dx ∧ (cx : Int) + dx < (W : Int) ∧
          0 ≤ (cy : Int) + dy ∧ (cy : Int) + dy < (H : Int)
      · rw [if_pos hcond] at heq
        set nx := ((cx : Int) + dx).toNat with hnx
        set ny := ((cy : Int) + dy).toNat with hny
        by_cases horig : gridGet g nx ny = []
        · rw [if_pos horig] at heq
          exact ih g st hcov heq
        · rw [if_neg horig] at heq
          rw [removedOptions_eq_filter adj tti curr dirIdx (gridGet g nx ny)
            hcur (fun t ht => hcov nx ny t ht)] at heq
          dsimp only at heq
          by_cases hrem :
              (gridGet g nx ny).filter (unsupB adj tti curr dirIdx) = []
          · rw [if_pos hrem] at heq
            exact ih g st hcov heq
          · rw [if_neg hrem] at heq
            by_cases hnew : (gridGet g nx ny).filter
                (fun t => t ∉ (gridGet g nx ny).filter
                  (unsupB adj tti curr dirIdx)) = []
            · rw [if_pos hnew] at heq
              simp at heq
            · rw [if_neg hnew] at heq
              by_cases hlt : ((gridGet g nx ny).filter
                  (fun t => t ∉ (gridGet g nx ny).filter
                    (unsupB adj tti curr dirIdx))).length <
                    (gridGet g nx ny).length
              · rw [if_pos hlt] at heq
                have hcov2 : Covered tti (gridSet g nx ny
                    ((gridGet g nx ny).filter
                      (fun t => t ∉ (gridGet g nx ny).filter
                        (unsupB adj tti curr dirIdx)))) :=
                  hcov.of_subgrid (subgrid_gridSet
                    (fun t ht => (List.mem_filter.mp ht).1)
                    (List.length_filter_le _ _))
                exact ih _ _ hcov2 heq
              · rw [if_neg hlt] at heq
                exact ih g st hcov heq
      · rw [if_neg hcond] at heq
        exact ih g st hcov heq

theorem propagateLoop_success_subgrid (adj : Adjacency)
    (tti : Nat → Option Nat) (W H : Nat) :
    ∀ (fuel : Nat) (st : List (Nat × Nat)) (g g2 : Grid),
      propagateLoop adj tti W H fuel st g = some (.success g2) →
      Subgrid g2 g := by
  intro fuel
  induction fuel with
  | zero =>
      intro st g g2 heq
      simp only [propagateLoop] at heq
      exact absurd heq (by simp)
  | succ fuel ih =>
      intro st g g2 heq
      cases st with
      | nil =>
          simp only [propagateLoop, Option.some.injEq, PropOut.success.injEq]
            at heq
          rw [← heq]
          exact Subgrid.refl g
      | cons c rest =>
          obtain ⟨cx, cy⟩ := c
          simp only [propagateLoop] at heq
          by_cases hemp : gridGet g cx cy = []
          · rw [if_pos hemp] at heq
            exact ih rest g g2 heq
          · rw [if_neg hemp] at heq
            cases hpd : processDirs adj tti W H cx cy (gridGet g cx cy)
                dirList g rest with
            | ok gm stm =>
                rw [hpd] at heq
                dsimp only at heq
                have hbasic := processDirs_basic adj tti W H cx cy
                  (gridGet g cx cy) dirList g rest gm stm hpd
                  (fun d hd => hd)
                exact (ih stm gm g2 heq).trans hbasic.1
            | contra gm =>
                rw [hpd] at heq
                simp at heq
            | err =>
                rw [hpd] at heq
                simp at heq

theorem propagateLoop_failure_shape (adj : Adjacency)
    (tti : Nat → Option Nat) (W H : Nat) :
    ∀ (fuel : Nat) (st : List (Nat × Nat)) (g g2 : Grid),
      propagateLoop adj tti W H fuel st g = some (.failure g2) →
      Subgrid g2 g ∧ ∃ a b, gridGet g a b ≠ [] ∧ gridGet g2 a b = [] := by
  intro fuel
  induction fuel with
  | zero =>
      intro st g g2 heq
      simp only [propagateLoop] at heq
      exact absurd heq (by simp)
  | succ fuel ih =>
      intro st g g2 heq
      cases st with
      | nil =>
          simp only [propagateLoop] at heq
          exact absurd heq (by simp)
      | cons c rest =>
          obtain ⟨cx, cy⟩ := c
          simp only [propagateLoop] at heq
          by_cases hemp : gridGet g cx cy = []
          · rw [if_pos hemp] at heq
            exact ih rest g g2 heq
          · rw [if_neg hemp] at heq
            cases hpd : processDirs adj tti W H cx cy (gridGet g cx cy)
                dirList g rest with
            | ok gm stm =>
                rw [hpd] at heq
                dsimp only at heq
                have hbasic := processDirs_basic adj tti W H cx cy
                  (gridGet g cx cy) dirList g rest gm stm hpd
                  (fun d hd => hd)
                obtain ⟨ihs, a, b, hne, hempb⟩ := ih stm gm g2 heq
                refine ⟨ihs.trans hbasic.1, a, b, ?_, hempb⟩
                obtain ⟨t, ht⟩ := List.exists_mem_of_ne_nil _ hne
                have := (hbasic.1 a b).1 t ht
                exact fun hcontra => by
                  rw [hcontra] at this
                  simp at this
            | contra gm =>
                rw [hpd] at heq
                simp only [Option.some.injEq, PropOut.failure.injEq] at heq
                rw [← heq]
                exact processDirs_contra adj tti W H cx cy (gridGet g cx cy)
                  dirList g rest gm hpd
            | err =>
                rw [hpd] at heq
                simp at heq

theorem propagateLoop_fuel (adj : Adjacency) (tti : Nat → Option Nat)
    (W H : Nat) :
    ∀ (fuel : Nat) (st : List (Nat × Nat)) (g : Grid),
      2 * gridTotal g + st.length < fuel →
      propagateLoop adj tti W H fuel st g ≠ none := by
  intro fuel
  induction fuel with
  | zero =>
      intro st g hf
      omega
  | succ fuel ih =>
      intro st g hf
      cases st with
      | nil =>
          simp [propagateLoop]
      | cons c rest =>
          obtain ⟨cx, cy⟩ := c
          simp only [propagateLoop]
          by_cases hemp : gridGet g cx cy = []
          · rw [if_pos hemp]
            apply ih rest g
            simp only [List.length_cons] at hf
            omega
          · rw [if_neg hemp]
            cases hpd : processDirs adj tti W H cx cy (gridGet g cx cy)
                dirList g rest with
            | ok gm stm =>
                dsimp only
                apply ih stm gm
                have hbasic := processDirs_basic adj tti W H cx cy
                  (gridGet g cx cy) dirList g rest gm stm hpd
                  (fun d hd => hd)
                have hms := hbasic.2.2.2.2.2.1
                simp only [List.length_cons] at hf
                omega
            | contra gm => simp
            | err => simp

theorem propagateLoop_noerr (adj : Adjacency) (tti : Nat → Option Nat)
    (W H : Nat) :
    ∀ (fuel : Nat) (st : List (Nat × Nat)) (g : Grid),
      Covered tti g →
      propagateLoop adj tti W H fuel st g ≠ some .err := by
  intro fuel
  induction fuel with
  | zero =>
      intro st g _
      simp [propagateLoop]
  | succ fuel ih =>
      intro st g hcov
      cases st with
      | nil =>
          simp [propagateLoop]
      | cons c rest =>
          obtain ⟨cx, cy⟩ := c
          simp only [propagateLoop]
          by_cases hemp : gridGet g cx cy = []
          · rw [if_pos hemp]
            exact ih rest g hcov
          · rw [if_neg hemp]
            cases hpd : processDirs adj tti W H cx cy (gridGet g cx cy)
                dirList g rest with
            | ok gm stm =>
                dsimp only
                have hbasic := processDirs_basic adj tti W H cx cy
                  (gridGet g cx cy) dirList g rest gm stm hpd
                  (fun d hd => hd)
                exact ih stm gm (hcov.of_subgrid hbasic.1)
            | contra gm => simp
            | err =>
                exact absurd hpd (processDirs_noerr adj tti W H cx cy
                  (gridGet g cx cy) (fun t ht => hcov cx cy t ht) dirList g
                  rest hcov)

/-- C10: whenever propagate_constraints returns failure, the returned grid
contains a cell that held tiles at entry and has been set to the empty set,
and every cell of the returned grid holds a subset of the tiles it held at
entry (removals already applied by the aborted pass stay in place; nothing
is rolled back to the pre-call state). -/
theorem c10_propagate_failure (adj : Adjacency) (tti : Nat → Option Nat)
    (grid : Grid) (sx sy fuel : Nat) (g2 : Grid)
    (h : propagate_constraints adj tti grid sx sy fuel = some (.failure g2)) :
    (∃ a b, gridGet grid a b ≠ [] ∧ gridGet g2 a b = []) ∧
    (∀ a b, (∀ t ∈ gridGet g2 a b, t ∈ gridGet grid a b) ∧
      (gridGet g2 a b).length ≤ (gridGet grid a b).length) := by
  unfold propagate_constraints at h
  obtain ⟨hsub, hcell⟩ := propagateLoop_failure_shape adj tti
    (grid.getD 0 []).length grid.length fuel [(sx, sy)] grid g2 h
  exact ⟨hcell, hsub⟩

/-- Witness for C10 on a 3 by 1 grid with same-tile adjacency: propagating
from the collapsed left cell [0] empties the right cell [1] and the
middle-cell removal 1 (from [0, 1] to [0]) stays in place, so the failed
call is visibly not atomic. -/
theorem c10_propagate_failure_witness :
    propagate_constraints adjSame ttiTwo [[[0], [0, 1], [1]]] 0 0 20 =
        some (.failure [[[0], [0], []]]) ∧
    ((∃ a b, gridGet [[[0], [0, 1], [1]]] a b ≠ [] ∧
        gridGet [[[0], [0], []]] a b = []) ∧
      (∀ a b, (∀ t ∈ gridGet [[[0], [0], []]] a b,
          t ∈ gridGet [[[0], [0, 1], [1]]] a b) ∧
        (gridGet [[[0], [0], []]] a b).length ≤
          (gridGet [[[0], [0, 1], [1]]] a b).length)) ∧
    gridGet [[[0], [0], []]] 1 0 ≠ gridGet [[[0], [0, 1], [1]]] 1 0 :=
  ⟨by decide,
   c10_propagate_failure adjSame ttiTwo [[[0], [0, 1], [1]]] 0 0 20
     [[[0], [0], []]] (by decide),
   by decide⟩

theorem step_subgrid (adj : Adjacency) (syms : List Nat)
    (tti : Nat → Option Nat) (probs : List ℚ) (det : Bool) (a b : Nat)
    (r : ℚ) (u : Nat) (fuel : Nat) (g g2 : Grid) (t tr : Bool)
    (h : biome_wfc_step adj syms tti probs det a b r u fuel g =
      some (.ok g2 t tr)) : Subgrid g2 g := by
  unfold biome_wfc_step at h
  cases hfind : find_lowest_entropy_cell g det a with
  | none =>
      rw [hfind] at h
      dsimp only at h
      by_cases h1 : (scanFlags g).1 = true
      · rw [if_pos h1] at h
        cases h
        exact Subgrid.refl g
      · rw [if_neg h1] at h
        by_cases h2 : (scanFlags g).2 = true
        · rw [if_pos h2] at h
          cases h
          exact Subgrid.refl g
        · rw [if_neg h2] at h
          cases h
          exact Subgrid.refl g
  | some c =>
      obtain ⟨x, y⟩ := c
      rw [hfind] at h
      dsimp only at h
      cases hc2 : (collapse_cell g syms tti x y probs det r u).2 with
      | none =>
          rw [hc2] at h
          dsimp only at h
          cases h
          rw [collapse_none_eq hc2]
          exact Subgrid.refl g
      | some tile =>
          rw [hc2] at h
          dsimp only at h
          obtain ⟨hmem, hne, heq⟩ := collapse_some_eq hc2
          have hsubc : Subgrid (collapse_cell g syms tti x y probs det r u).1 g := by
            rw [heq]
            exact subgrid_gridSet (by simpa using hmem)
              (by simpa using Nat.succ_le_of_lt (List.length_pos.mpr hne))
          cases hprop : propagate_constraints adj tti
              (collapse_cell g syms tti x y probs det r u).1 x y fuel with
          | none =>
              rw [hprop] at h
              simp at h
          | some out =>
              rw [hprop] at h
              cases out with
              | err => simp at h
              | failure g3 =>
                  dsimp only at h
                  cases h
                  unfold propagate_constraints at hprop
                  exact ((propagateLoop_failure_shape adj tti _ _ fuel _ _ _
                    hprop).1).trans hsubc
              | success g3 =>
                  dsimp only at h
                  have hsubp : Subgrid g3
                      (collapse_cell g syms tti x y probs det r u).1 := by
                    unfold propagate_constraints at hprop
                    exact propagateLoop_success_subgrid adj tti _ _ fuel _ _ _
                      hprop
                  cases hfind2 : find_lowest_entropy_cell g3 det b with
                  | some c2 =>
                      rw [hfind2] at h
                      dsimp only at h
                      cases h
                      exact hsubp.trans hsubc
                  | none =>
                      rw [hfind2] at h
                      dsimp only at h
                      by_cases h1 : (scanFlags g3).1 = true
                      · rw [if_pos h1] at h
                        cases h
                        exact hsubp.trans hsubc
                      · rw [if_neg h1] at h
                        by_cases h2 : (scanFlags g3).2 = true
                        · rw [if_pos h2] at h
                          cases h
                          exact hsubp.trans hsubc
                        · rw [if_neg h2] at h
                          cases h
                          exact hsubp.trans hsubc

theorem runSteps_subgrid (adj : Adjacency) (syms : List Nat)
    (tti : Nat → Option Nat) :
    ∀ (n : Nat) (probs : Nat → List ℚ) (det : Bool) (sel1 sel2 : Nat → Nat)
      (rs : Nat → ℚ) (us : Nat → Nat) (g g2 : Grid) (t tr : Bool),
      runSteps adj syms tti probs det sel1 sel2 rs us g n = some (g2, t, tr) →
      Subgrid g2 g := by
  intro n
  induction n with
  | zero =>
      intro probs det sel1 sel2 rs us g g2 t tr h
      simp only [runSteps, Option.some.injEq, Prod.mk.injEq] at h
      rw [← h.1]
      exact Subgrid.refl g
  | succ n ih =>
      intro probs det sel1 sel2 rs us g g2 t tr h
      simp only [runSteps] at h
      cases hstep : biome_wfc_stepAuto adj syms tti (probs 0) det (sel1 0)
          (sel2 0) (rs 0) (us 0) g with
      | none =>
          rw [hstep] at h
          simp at h
      | some out =>
          rw [hstep] at h
          cases out with
          | err => simp at h
          | ok gm tm trm =>
              dsimp only at h
              unfold biome_wfc_stepAuto at hstep
              have hsub : Subgrid gm g :=
                step_subgrid adj syms tti (probs 0) det (sel1 0) (sel2 0)
                  (rs 0) (us 0) (stepFuel g) g gm tm trm hstep
              cases n with
              | zero =>
                  simp only [Option.some.injEq, Prod.mk.injEq] at h
                  rw [← h.1]
                  exact hsub
              | succ m =>
                  exact (ih _ _ _ _ _ _ gm g2 t tr h).trans hsub

/-- C5: a biome_wfc_step call that returns never adds a tile to any cell:
every cell of the returned grid holds a subset of the tiles it held before
the call and its size did not grow; consequently over any number of
consecutive calls every cell domain is non-increasing. -/
theorem c5_domains_shrink (adj : Adjacency) (tile_symbols : List Nat)
    (tti : Nat → Option Nat) :
    (∀ (probs : List ℚ) (det : Bool) (a b : Nat) (r : ℚ) (u fuel : Nat)
      (g g2 : Grid) (t tr : Bool),
      biome_wfc_step adj tile_symbols tti probs det a b r u fuel g =
        some (.ok g2 t tr) →
      ∀ x y, (∀ s ∈ gridGet g2 x y, s ∈ gridGet g x y) ∧
        (gridGet g2 x y).length ≤ (gridGet g x y).length) ∧
    (∀ (probs : Nat → List ℚ) (det : Bool) (sel1 sel2 : Nat → Nat)
      (rs : Nat → ℚ) (us : Nat → Nat) (n : Nat) (g g2 : Grid) (t tr : Bool),
      runSteps adj tile_symbols tti probs det sel1 sel2 rs us g n =
        some (g2, t, tr) →
      ∀ x y, (∀ s ∈ gridGet g2 x y, s ∈ gridGet g x y) ∧
        (gridGet g2 x y).length ≤ (gridGet g x y).length) := by
  constructor
  · intro probs det a b r u fuel g g2 t tr h x y
    exact step_subgrid adj tile_symbols tti probs det a b r u fuel g g2 t tr
      h x y
  · intro probs det sel1 sel2 rs us n g g2 t tr h x y
    exact runSteps_subgrid adj tile_symbols tti n probs det sel1 sel2 rs us
      g g2 t tr h x y

/-- Witness for C5: one deterministic step on a fresh 2 by 1 grid with the
all-compatible adjacency collapses the first cell, and every cell of the
result is a subset of what it was. -/
theorem c5_domains_shrink_witness :
    runSteps adjAll [0, 1] ttiTwo (fun _ => [1, 0]) true (fun _ => 0)
        (fun _ => 0) (fun _ => 0) (fun _ => 0)
        (initialize_wfc_grid 2 1 [0, 1]) 1 =
      some ([[[0], [0, 1]]], false, false) ∧
    (∀ x y, (∀ s ∈ gridGet [[[0], [0, 1]]] x y,
        s ∈ gridGet (initialize_wfc_grid 2 1 [0, 1]) x y) ∧
      (gridGet [[[0], [0, 1]]] x y).length ≤
        (gridGet (initialize_wfc_grid 2 1 [0, 1]) x y).length) :=
  ⟨by decide,
   (c5_domains_shrink adjAll [0, 1] ttiTwo).2 (fun _ => [1, 0]) true
     (fun _ => 0) (fun _ => 0) (fun _ => 0) (fun _ => 0) 1
     (initialize_wfc_grid 2 1 [0, 1]) [[[0], [0, 1]]] false false
     (by decide)⟩

theorem scanFlags_fst (g : Grid) :
    (scanFlags g).1 = true ↔ ∃ row ∈ g, [] ∈ row := by
  unfold scanFlags
  simp only [List.any_eq_true, List.isEmpty_iff]
  constructor
  · intro ⟨row, hrow, cell, hcell, hc⟩
    exact ⟨row, hrow, hc ▸ hcell⟩
  · intro ⟨row, hrow, hcell⟩
    exact ⟨row, hrow, [], hcell, rfl⟩

theorem scanFlags_snd (g : Grid) :
    (scanFlags g).2 = true ↔ ∀ row ∈ g, ∀ cell ∈ row, cell.length = 1 := by
  unfold scanFlags
  simp only [List.all_eq_true, decide_eq_true_eq]

theorem step_not_both (adj : Adjacency) (syms : List Nat)
    (tti : Nat → Option Nat) (probs : List ℚ) (det : Bool) (a b : Nat)
    (r : ℚ) (u : Nat) (fuel : Nat) (g g2 : Grid) (t tr : Bool)
    (h : biome_wfc_step adj syms tti probs det a b r u fuel g =
      some (.ok g2 t tr)) : ¬ (t = true ∧ tr = true) := by
  unfold biome_wfc_step at h
  cases hfind : find_lowest_entropy_cell g det a with
  | none =>
      rw [hfind] at h
      dsimp only at h
      by_cases h1 : (scanFlags g).1 = true
      · rw [if_pos h1] at h
        cases h
        simp
      · rw [if_neg h1] at h
        by_cases h2 : (scanFlags g).2 = true
        · rw [if_pos h2] at h
          cases h
          simp
        · rw [if_neg h2] at h
          cases h
          simp
  | some c =>
      obtain ⟨x, y⟩ := c
      rw [hfind] at h
      dsimp only at h
      cases hc2 : (collapse_cell g syms tti x y probs det r u).2 with
      | none =>
          rw [hc2] at h
          dsimp only at h
          cases h
          simp
      | some tile =>
          rw [hc2] at h
          dsimp only at h
          cases hprop : propagate_constraints adj tti
              (collapse_cell g syms tti x y probs det r u).1 x y fuel with
          | none =>
              rw [hprop] at h
              simp at h
          | some out =>
              rw [hprop] at h
              cases out with
              | err => simp at h
              | failure g3 =>
                  dsimp only at h
                  cases h
                  simp
              | success g3 =>
                  dsimp only at h
                  cases hfind2 : find_lowest_entropy_cell g3 det b with
                  | some c2 =>
                      rw [hfind2] at h
                      dsimp only at h
                      cases h
                      simp
                  | none =>
                      rw [hfind2] at h
                      dsimp only at h
                      by_cases h1 : (scanFlags g3).1 = true
                      · rw [if_pos h1] at h
                        cases h
                        simp
                      · rw [if_neg h1] at h
                        by_cases h2 : (scanFlags g3).2 = true
                        · rw [if_pos h2] at h
                          cases h
                          simp
                        · rw [if_neg h2] at h
                          cases h
                          simp

/-- C6: at both no-candidate sites of biome_wfc_step -- on entry, before any
collapse, and after a successful propagation, when the second selector call
reports no candidate -- the step returns the scanned grid classified from
one full scan: truncated when some cell is empty, terminated when every
cell has exactly one possibility, and truncated defensively otherwise;
moreover no return of biome_wfc_step ever carries terminated and truncated
both true. -/
theorem c6_step_classification (adj : Adjacency) (tile_symbols : List Nat)
    (tti : Nat → Option Nat) :
    (∀ (probs : List ℚ) (det : Bool) (a b : Nat) (r : ℚ) (u fuel : Nat)
      (g : Grid),
      find_lowest_entropy_cell g det a = none →
      ((∃ row ∈ g, [] ∈ row) →
        biome_wfc_step adj tile_symbols tti probs det a b r u fuel g =
          some (.ok g false true)) ∧
      (¬ (∃ row ∈ g, [] ∈ row) →
        (∀ row ∈ g, ∀ cell ∈ row, cell.length = 1) →
        biome_wfc_step adj tile_symbols tti probs det a b r u fuel g =
          some (.ok g true false)) ∧
      (¬ (∃ row ∈ g, [] ∈ row) →
        ¬ (∀ row ∈ g, ∀ cell ∈ row, cell.length = 1) →
        biome_wfc_step adj tile_symbols tti probs det a b r u fuel g =
          some (.ok g false true))) ∧
    (∀ (probs : List ℚ) (det : Bool) (a b : Nat) (r : ℚ) (u fuel : Nat)
      (g g2 : Grid) (x y tile : Nat),
      find_lowest_entropy_cell g det a = some (x, y) →
      (collapse_cell g tile_symbols tti x y probs det r u).2 = some tile →
      propagate_constraints adj tti
        (collapse_cell g tile_symbols tti x y probs det r u).1 x y fuel =
        some (.success g2) →
      find_lowest_entropy_cell g2 det b = none →
      ((∃ row ∈ g2, [] ∈ row) →
        biome_wfc_step adj tile_symbols tti probs det a b r u fuel g =
          some (.ok g2 false true)) ∧
      (¬ (∃ row ∈ g2, [] ∈ row) →
        (∀ row ∈ g2, ∀ cell ∈ row, cell.length = 1) →
        biome_wfc_step adj tile_symbols tti probs det a b r u fuel g =
          some (.ok g2 true false)) ∧
      (¬ (∃ row ∈ g2, [] ∈ row) →
        ¬ (∀ row ∈ g2, ∀ cell ∈ row, cell.length = 1) →
        biome_wfc_step adj tile_symbols tti probs det a b r u fuel g =
          some (.ok g2 false true))) ∧
    (∀ (probs : List ℚ) (det : Bool) (a b : Nat) (r : ℚ) (u fuel : Nat)
      (g g2 : Grid) (t tr : Bool),
      biome_wfc_step adj tile_symbols tti probs det a b r u fuel g =
        some (.ok g2 t tr) → ¬ (t = true ∧ tr = true)) := by
  refine ⟨?_, ?_, ?_⟩
  · intro probs det a b r u fuel g hfind
    refine ⟨?_, ?_, ?_⟩
    · intro hemp
      unfold biome_wfc_step
      rw [hfind]
      dsimp only
      rw [if_pos ((scanFlags_fst g).mpr hemp)]
    · intro hemp hall
      unfold biome_wfc_step
      rw [hfind]
      dsimp only
      rw [if_neg (fun hcontra => hemp ((scanFlags_fst g).mp hcontra)),
        if_pos ((scanFlags_snd g).mpr hall)]
    · intro hemp hall
      unfold biome_wfc_step
      rw [hfind]
      dsimp only
      rw [if_neg (fun hcontra => hemp ((scanFlags_fst g).mp hcontra)),
        if_neg (fun hcontra => hall ((scanFlags_snd g).mp hcontra))]
  · intro probs det a b r u fuel g g2 x y tile hfind hc hprop hfind2
    have hstep : biome_wfc_step adj tile_symbols tti probs det a b r u fuel g =
        (if (scanFlags g2).1 then some (.ok g2 false true)
         else if (scanFlags g2).2 then some (.ok g2 true false)
         else some (.ok g2 false true)) := by
      unfold biome_wfc_step
      rw [hfind]
      dsimp only
      rw [hc]
      dsimp only
      rw [hprop]
      dsimp only
      rw [hfind2]
    refine ⟨?_, ?_, ?_⟩
    · intro hemp
      rw [hstep, if_pos ((scanFlags_fst g2).mpr hemp)]
    · intro hemp hall
      rw [hstep, if_neg (fun hcontra => hemp ((scanFlags_fst g2).mp hcontra)),
        if_pos ((scanFlags_snd g2).mpr hall)]
    · intro hemp hall
      rw [hstep, if_neg (fun hcontra => hemp ((scanFlags_fst g2).mp hcontra)),
        if_neg (fun hcontra => hall ((scanFlags_snd g2).mp hcontra))]
  · intro probs det a b r u fuel g g2 t tr h
    exact step_not_both adj tile_symbols tti probs det a b r u fuel g g2 t tr h

/-- Witness for C6 at both classification sites: on a fully collapsed 2 by 1
grid the entry selector reports no candidate and the step returns terminated;
on a fresh 2 by 1 grid under the equal-tiles adjacency the step collapses
cell (0, 0), propagation collapses the other cell, the second selector
reports no candidate, and the step returns terminated on the propagated
grid. -/
theorem c6_step_classification_witness :
    biome_wfc_step adjAll [0, 1] ttiTwo [1, 0] true 0 0 0 0 10
        [[[0], [1]]] = some (.ok [[[0], [1]]] true false) ∧
    biome_wfc_step adjSame [0, 1] ttiTwo [1, 0] true 0 0 0 0 10
        [[[0, 1], [0, 1]]] = some (.ok [[[0], [0]]] true false) :=
  ⟨((c6_step_classification adjAll [0, 1] ttiTwo).1 [1, 0] true 0 0 0 0 10
      [[[0], [1]]] (by decide)).2.1 (by decide) (by decide),
   ((c6_step_classification adjSame [0, 1] ttiTwo).2.1 [1, 0] true 0 0 0 0 10
      [[[0, 1], [0, 1]]] [[[0], [0]]] 0 0 0 (by decide) (by decide)
      (by decide) (by decide)).2.1 (by decide) (by decide)⟩

theorem processDirs_shape (adj : Adjacency) (tti : Nat → Option Nat)
    (W H cx cy : Nat) (curr : Domain) :
    ∀ (ds : List (Nat × Int × Int)) (g : Grid) (st : List (Nat × Nat))
      (g2 : Grid) (st2 : List (Nat × Nat)),
      processDirs adj tti W H cx cy curr ds g st = .ok g2 st2 →
      g2.length = g.length ∧
        ∀ i, ((g2.getD i []).length = (g.getD i []).length) := by
  intro ds
  induction ds with
  | nil =>
      intro g st g2 st2 heq
      simp only [processDirs] at heq
      obtain ⟨rfl, rfl⟩ : g = g2 ∧ st = st2 := by
        cases heq
        exact ⟨rfl, rfl⟩
      exact ⟨rfl, fun i => rfl⟩
  | cons d0 rest ih =>
      intro g st g2 st2 heq
      obtain ⟨dirIdx, dx, dy⟩ := d0
      simp only [processDirs] at heq
      by_cases hcond : 0 ≤ (cx : Int) + dx ∧ (cx : Int) + dx < (W : Int) ∧
          0 ≤ (cy : Int) + dy ∧ (cy : Int) + dy < (H : Int)
      · rw [if_pos hcond] at heq
        set nx := ((cx : Int) + dx).toNat with hnx
        set ny := ((cy : Int) + dy).toNat with hny
        by_cases horig : gridGet g nx ny = []
        · rw [if_pos horig] at heq
          exact ih g st g2 st2 heq
        · rw [if_neg horig] at heq
          cases hro : removedOptions adj tti curr dirIdx (gridGet g nx ny) with
          | none =>
              rw [hro] at heq
              simp at heq
          | some removed =>
              rw [hro] at heq
              dsimp only at heq
              by_cases hrem : removed = []
              · rw [if_pos hrem] at heq
                exact ih g st g2 st2 heq
              · rw [if_neg hrem] at heq
                by_cases hnew :
                    (gridGet g nx ny).filter (fun t => t ∉ removed) = []
                · rw [if_pos hnew] at heq
                  simp at heq
                · rw [if_neg hnew] at heq
                  by_cases hlt :
                      ((gridGet g nx ny).filter (fun t => t ∉ removed)).length <
                        (gridGet g nx ny).length
                  · rw [if_pos hlt] at heq
                    obtain ⟨ih1, ih2⟩ := ih _ _ g2 st2 heq
                    refine ⟨?_, ?_⟩
                    · rw [ih1, length_gridSet]
                    · intro i
                      rw [ih2 i, rowLength_gridSet]
                  · rw [if_neg hlt] at heq
                    exact ih g st g2 st2 heq
      · rw [if_neg hcond] at heq
        exact ih g st g2 st2 heq

theorem propagateLoop_success_shape (adj : Adjacency)
    (tti : Nat → Option Nat) (W H : Nat) :
    ∀ (fuel : Nat) (st : List (Nat × Nat)) (g g2 : Grid),
      propagateLoop adj tti W H fuel st g = some (.success g2) →
      g2.length = g.length ∧
        ∀ i, ((g2.getD i []).length = (g.getD i []).length) := by
  intro fuel
  induction fuel with
  | zero =>
      intro st g g2 heq
      simp only [propagateLoop] at heq
      exact absurd heq (by simp)
  | succ fuel ih =>
      intro st g g2 heq
      cases st with
      | nil =>
          simp only [propagateLoop, Option.some.injEq, PropOut.success.injEq]
            at heq
          rw [← heq]
          exact ⟨rfl, fun i => rfl⟩
      | cons c rest =>
          obtain ⟨cx, cy⟩ := c
          simp only [propagateLoop] at heq
          by_cases hemp : gridGet g cx cy = []
          · rw [if_pos hemp] at heq
            exact ih rest g g2 heq
          · rw [if_neg hemp] at heq
            cases hpd : processDirs adj tti W H cx cy (gridGet g cx cy)
                dirList g rest with
            | ok gm stm =>
                rw [hpd] at heq
                dsimp only at heq
                obtain ⟨hshape1, hshape2⟩ := processDirs_shape adj tti W H cx
                  cy (gridGet g cx cy) dirList g rest gm stm hpd
                obtain ⟨ih1, ih2⟩ := ih stm gm g2 heq
                exact ⟨ih1.trans hshape1, fun i => (ih2 i).trans (hshape2 i)⟩
            | contra gm =>
                rw [hpd] at heq
                simp at heq
            | err =>
                rw [hpd] at heq
                simp at heq

theorem rect_of_shape {g g2 : Grid} {W H : Nat} (hrect : Rect g W H)
    (h1 : g2.length = g.length)
    (h2 : ∀ i, (g2.getD i []).length = (g.getD i []).length) :
    Rect g2 W H := by
  constructor
  · rw [h1, hrect.1]
  · intro row hrow
    obtain ⟨i, hi, hget⟩ := List.getElem_of_mem hrow
    have hgetd : (g2.getD i []).length = row.length := by
      rw [List.getD_eq_getElem?_getD, List.getElem?_eq_getElem hi, hget]
      rfl
    have hiH : i < H := by
      rw [← hrect.1, ← h1]
      exact hi
    rw [← hgetd, h2 i, hrect.row_len hiH]

theorem rowMajorCells_eq_of_shape {g g2 : Grid}
    (h1 : g2.length = g.length)
    (h2 : ∀ i, (g2.getD i []).length = (g.getD i []).length) :
    rowMajorCells g2 = rowMajorCells g := by
  unfold rowMajorCells
  rw [h1, h2 0]

theorem undecided_zero_iff (g : Grid) :
    undecidedCount g = 0 ↔ entropyCandidates g = [] := by
  unfold undecidedCount
  rw [List.countP_eq_zero, entropyCandidates_eq_nil_iff]
  constructor
  · intro h c hc
    have := h c hc
    simp only [decide_eq_true_eq] at this
    omega
  · intro h c hc
    simp only [decide_eq_true_eq]
    have := h c hc
    omega

theorem undecided_pos_of_candidate {g : Grid} {c : Nat × Nat}
    (h : c ∈ entropyCandidates g) : 1 ≤ undecidedCount g := by
  obtain ⟨hmem, hlen, _⟩ := mem_entropyCandidates h
  unfold undecidedCount
  rw [Nat.succ_le_iff, List.countP_pos_iff]
  exact ⟨c, hmem, by simpa using hlen⟩

theorem undecided_collapse_decrement {g : Grid} {x y : Nat} (tile : Nat)
    (hmem : (x, y) ∈ rowMajorCells g)
    (hlen : 1 < (gridGet g x y).length)
    (hy : y < g.length) (hx : x < (g.getD y []).length) :
    undecidedCount (gridSet g x y [tile]) + 1 = undecidedCount g := by
  unfold undecidedCount
  rw [rowMajorCells_gridSet]
  apply countP_flip_one (rowMajorCells_nodup g) hmem
  · simpa using hlen
  · simp only [decide_eq_false_iff_not, not_lt]
    rw [gridGet_gridSet_self [tile] hy hx]
    simp
  · intro c hc hne
    have : ¬ (c.1 = x ∧ c.2 = y) := by
      intro ⟨h1, h2⟩
      exact hne (Prod.ext h1 h2)
    rw [gridGet_gridSet_ne [tile] this]

theorem undecided_mono {g g2 : Grid} (hsub : Subgrid g2 g)
    (hrm : rowMajorCells g2 = rowMajorCells g) :
    undecidedCount g2 ≤ undecidedCount g := by
  unfold undecidedCount
  rw [hrm]
  apply countP_le_of_imp
  intro c _ hc
  simp only [decide_eq_true_eq] at hc ⊢
  exact lt_of_lt_of_le hc (hsub c.1 c.2).2

theorem step_cases (adj : Adjacency) (syms : List Nat)
    (tti : Nat → Option Nat) (probs : List ℚ) (det : Bool) (a b : Nat)
    (r : ℚ) (u : Nat) (W H : Nat) (g : Grid)
    (hrect : Rect g W H) (hcov : Covered tti g) :
    ∃ g2 t tr, biome_wfc_stepAuto adj syms tti probs det a b r u g =
        some (.ok g2 t tr) ∧
      ((t || tr) = true ∨
        (Rect g2 W H ∧ Covered tti g2 ∧
          undecidedCount g2 < undecidedCount g ∧ 1 ≤ undecidedCount g2)) := by
  unfold biome_wfc_stepAuto biome_wfc_step
  cases hfind : find_lowest_entropy_cell g det a with
  | none =>
      dsimp only
      by_cases h1 : (scanFlags g).1 = true
      · rw [if_pos h1]
        exact ⟨g, false, true, rfl, Or.inl rfl⟩
      · rw [if_neg h1]
        by_cases h2 : (scanFlags g).2 = true
        · rw [if_pos h2]
          exact ⟨g, true, false, rfl, Or.inl rfl⟩
        · rw [if_neg h2]
          exact ⟨g, false, true, rfl, Or.inl rfl⟩
  | some c =>
      obtain ⟨x, y⟩ := c
      dsimp only
      cases hc2 : (collapse_cell g syms tti x y probs det r u).2 with
      | none =>
          dsimp only
          exact ⟨_, false, true, rfl, Or.inl rfl⟩
      | some tile =>
          dsimp only
          -- facts about the selected cell
          have hmem := find_lowest_some_mem hfind
          obtain ⟨hrm, hlen, _⟩ := mem_entropyCandidates hmem
          obtain ⟨hx0, hyg⟩ := mem_rowMajorCells.mp hrm
          simp only at hx0 hyg hlen
          have hyH : y < H := hrect.1 ▸ hyg
          have hH0 : 0 < H := Nat.zero_lt_of_lt hyH
          have hrow0 : (g.getD 0 []).length = W := hrect.row_len hH0
          have hrowy : (g.getD y []).length = W := hrect.row_len hyH
          have hxW : x < W := hrow0 ▸ hx0
          have hxy : x < (g.getD y []).length := hrowy ▸ hxW
          obtain ⟨htmem, hne, heqc⟩ := collapse_some_eq hc2
          have hc1 : (collapse_cell g syms tti x y probs det r u).1 =
              gridSet g x y [tile] := by
            rw [heqc]
          have hsubc : Subgrid (gridSet g x y [tile]) g :=
            subgrid_gridSet (by simpa using htmem)
              (by simpa using Nat.succ_le_of_lt (List.length_pos.mpr hne))
          have hcovc : Covered tti (gridSet g x y [tile]) :=
            hcov.of_subgrid hsubc
          have hrectc : Rect (gridSet g x y [tile]) W H :=
            Rect_gridSet hrect x y [tile]
          have htot := gridTotal_gridSet [tile] hyg hxy
          have hdec := undecided_collapse_decrement tile hrm hlen hyg hxy
          cases hprop : propagate_constraints adj tti
              (collapse_cell g syms tti x y probs det r u).1 x y
              (stepFuel g) with
          | none =>
              exfalso
              rw [hc1] at hprop
              unfold propagate_constraints at hprop
              apply propagateLoop_fuel adj tti
                ((gridSet g x y [tile]).getD 0 []).length
                (gridSet g x y [tile]).length (stepFuel g) [(x, y)]
                (gridSet g x y [tile]) ?_ hprop
              unfold stepFuel
              simp only [List.length_cons, List.length_nil]
              have htot2 : gridTotal (gridSet g x y [tile]) +
                  (gridGet g x y).length = gridTotal g + 1 := by
                simpa using htot
              omega
          | some out =>
              cases out with
              | err =>
                  exfalso
                  rw [hc1] at hprop
                  unfold propagate_constraints at hprop
                  exact propagateLoop_noerr adj tti _ _ (stepFuel g) [(x, y)]
                    (gridSet g x y [tile]) hcovc hprop
              | failure g3 =>
                  dsimp only
                  exact ⟨g3, false, true, rfl, Or.inl rfl⟩
              | success g3 =>
                  dsimp only
                  rw [hc1] at hprop
                  unfold propagate_constraints at hprop
                  have hshape := propagateLoop_success_shape adj tti _ _
                    (stepFuel g) [(x, y)] (gridSet g x y [tile]) g3 hprop
                  have hsub3 := propagateLoop_success_subgrid adj tti _ _
                    (stepFuel g) [(x, y)] (gridSet g x y [tile]) g3 hprop
                  have hrect3 : Rect g3 W H :=
                    rect_of_shape hrectc hshape.1 hshape.2
                  have hcov3 : Covered tti g3 := hcovc.of_subgrid hsub3
                  have hrm3 : rowMajorCells g3 =
                      rowMajorCells (gridSet g x y [tile]) :=
                    rowMajorCells_eq_of_shape hshape.1 hshape.2
                  have hmono := undecided_mono hsub3 hrm3
                  cases hfind2 : find_lowest_entropy_cell g3 det b with
                  | some c2 =>
                      dsimp only
                      refine ⟨g3, false, false, rfl, Or.inr
                        ⟨hrect3, hcov3, ?_, ?_⟩⟩
                      · omega
                      · exact undecided_pos_of_candidate
                          (find_lowest_some_mem hfind2)
                  | none =>
                      dsimp only
                      by_cases h1 : (scanFlags g3).1 = true
                      · rw [if_pos h1]
                        exact ⟨g3, false, true, rfl, Or.inl rfl⟩
                      · rw [if_neg h1]
                        by_cases h2 : (scanFlags g3).2 = true
                        · rw [if_pos h2]
                          exact ⟨g3, true, false, rfl, Or.inl rfl⟩
                        · rw [if_neg h2]
                          exact ⟨g3, false, true, rfl, Or.inl rfl⟩

theorem runSteps_terminal (adj : Adjacency) (syms : List Nat)
    (tti : Nat → Option Nat) :
    ∀ (m : Nat) (probs : Nat → List ℚ) (det : Bool) (sel1 sel2 : Nat → Nat)
      (rs : Nat → ℚ) (us : Nat → Nat) (W H : Nat) (g : Grid),
      Rect g W H → Covered tti g → undecidedCount g ≤ m →
      ∃ k, 1 ≤ k ∧ k ≤ max m 1 ∧
        ∃ g2 t tr, runSteps adj syms tti probs det sel1 sel2 rs us g k =
          some (g2, t, tr) ∧ (t || tr) = true := by
  intro m
  induction m with
  | zero =>
      intro probs det sel1 sel2 rs us W H g hrect hcov hm
      obtain ⟨g2, t, tr, hstep, hcase⟩ := step_cases adj syms tti (probs 0)
        det (sel1 0) (sel2 0) (rs 0) (us 0) W H g hrect hcov
      rcases hcase with hterm | ⟨_, _, hlt, hpos⟩
      · refine ⟨1, Nat.le_refl 1, by omega, g2, t, tr, ?_, hterm⟩
        simp only [runSteps]
        rw [hstep]
      · omega
  | succ m ih =>
      intro probs det sel1 sel2 rs us W H g hrect hcov hm
      obtain ⟨g2, t, tr, hstep, hcase⟩ := step_cases adj syms tti (probs 0)
        det (sel1 0) (sel2 0) (rs 0) (us 0) W H g hrect hcov
      rcases hcase with hterm | ⟨hrect2, hcov2, hlt, hpos⟩
      · refine ⟨1, Nat.le_refl 1, by omega, g2, t, tr, ?_, hterm⟩
        simp only [runSteps]
        rw [hstep]
      · have hm2 : undecidedCount g2 ≤ m := by omega
        obtain ⟨k, hk1, hkb, g3, t3, tr3, hrun, hflag⟩ :=
          ih (fun n => probs (n + 1)) det (fun n => sel1 (n + 1))
            (fun n => sel2 (n + 1)) (fun n => rs (n + 1))
            (fun n => us (n + 1)) W H g2 hrect2 hcov2 hm2
        have hm1 : 1 ≤ m := Nat.le_trans hpos hm2
        refine ⟨k + 1, by omega, ?_, g3, t3, tr3, ?_, hflag⟩
        · rw [Nat.max_eq_left hm1] at hkb
          rw [Nat.max_eq_left (by omega)]
          omega
        · obtain ⟨k2, rfl⟩ : ∃ k2, k = k2 + 1 := ⟨k - 1, by omega⟩
          simp only [runSteps]
          rw [hstep]
          exact hrun

theorem stepAuto_ne_none (adj : Adjacency) (syms : List Nat)
    (tti : Nat → Option Nat) (probs : List ℚ) (det : Bool) (a b : Nat)
    (r : ℚ) (u : Nat) (g : Grid) :
    biome_wfc_stepAuto adj syms tti probs det a b r u g ≠ none := by
  unfold biome_wfc_stepAuto biome_wfc_step
  cases hfind : find_lowest_entropy_cell g det a with
  | none =>
      dsimp only
      by_cases h1 : (scanFlags g).1 = true
      · rw [if_pos h1]
        simp
      · rw [if_neg h1]
        by_cases h2 : (scanFlags g).2 = true
        · rw [if_pos h2]
          simp
        · rw [if_neg h2]
          simp
  | some c =>
      obtain ⟨x, y⟩ := c
      dsimp only
      cases hc2 : (collapse_cell g syms tti x y probs det r u).2 with
      | none => simp
      | some tile =>
          dsimp only
          obtain ⟨htmem, hne, heqc⟩ := collapse_some_eq hc2
          have hc1 : (collapse_cell g syms tti x y probs det r u).1 =
              gridSet g x y [tile] := by
            rw [heqc]
          obtain ⟨hyg, hxy⟩ := gridGet_ne_nil_bounds hne
          have htot := gridTotal_gridSet [tile] hyg hxy
          cases hprop : propagate_constraints adj tti
              (collapse_cell g syms tti x y probs det r u).1 x y
              (stepFuel g) with
          | none =>
              exfalso
              rw [hc1] at hprop
              unfold propagate_constraints at hprop
              apply propagateLoop_fuel adj tti
                ((gridSet g x y [tile]).getD 0 []).length
                (gridSet g x y [tile]).length (stepFuel g) [(x, y)]
                (gridSet g x y [tile]) ?_ hprop
              unfold stepFuel
              simp only [List.length_cons, List.length_nil]
              have hlen1 : 1 ≤ (gridGet g x y).length :=
                Nat.succ_le_of_lt (List.length_pos.mpr hne)
              have htot2 : gridTotal (gridSet g x y [tile]) +
                  (gridGet g x y).length = gridTotal g + 1 := by
                simpa using htot
              omega
          | some out =>
              cases out with
              | err => simp
              | failure g3 => simp
              | success g3 =>
                  dsimp only
                  cases hfind2 : find_lowest_entropy_cell g3 det b with
                  | some c2 => simp
                  | none =>
                      dsimp only
                      by_cases h1 : (scanFlags g3).1 = true
                      · rw [if_pos h1]
                        simp
                      · rw [if_neg h1]
                        by_cases h2 : (scanFlags g3).2 = true
                        · rw [if_pos h2]
                          simp
                        · rw [if_neg h2]
                          simp

theorem getD_replicate_lt {α : Type} {n i : Nat} (h : i < n) (a d : α) :
    (List.replicate n a).getD i d = a := by
  rw [List.getD_eq_getElem?_getD, List.getElem?_eq_getElem (by simpa using h)]
  simp

theorem gridGet_initialize (W H : Nat) (syms : List Nat) (x y : Nat) :
    gridGet (initialize_wfc_grid W H syms) x y =
      if y < H ∧ x < W then syms else [] := by
  unfold gridGet initialize_wfc_grid
  by_cases hy : y < H
  · rw [getD_replicate_lt hy]
    by_cases hx : x < W
    · rw [getD_replicate_lt hx, if_pos ⟨hy, hx⟩]
    · rw [getD_of_le (by simpa using Nat.le_of_not_lt hx),
        if_neg (fun hc => hx hc.2)]
  · rw [getD_of_le (l := List.replicate H (List.replicate W syms))
      (by simpa using Nat.le_of_not_lt hy)]
    rw [if_neg (fun hc => hy hc.1)]
    simp

theorem Rect_initialize (W H : Nat) (syms : List Nat) :
    Rect (initialize_wfc_grid W H syms) W H := by
  constructor
  · simp [initialize_wfc_grid]
  · intro row hrow
    unfold initialize_wfc_grid at hrow
    rw [List.eq_of_mem_replicate hrow]
    simp

theorem Covered_initialize (W H : Nat) (syms : List Nat)
    (tti : Nat → Option Nat) (hcat : ∀ t ∈ syms, (tti t).isSome) :
    Covered tti (initialize_wfc_grid W H syms) := by
  intro x y t ht
  rw [ gridGet_initialize] at ht
  by_cases h : y < H ∧ x < W
  · rw [if_pos h] at ht
    exact hcat t ht
  · rw [if_neg h] at ht
    simp at ht

theorem rowMajorCells_length (g : Grid) :
    (rowMajorCells g).length = g.length * (g.getD 0 []).length := by
  unfold rowMajorCells
  rw [List.length_flatMap]
  have hmap : (List.range g.length).map
      (List.length ∘ fun y => (List.range (g.getD 0 []).length).map
        (fun x => (x, y))) =
      (List.range g.length).map (fun _ => (g.getD 0 []).length) := by
    apply List.map_congr_left
    intro y _
    simp [Function.comp]
  rw [hmap, List.map_const', List.sum_replicate, smul_eq_mul]
  simp

theorem undecided_initialize_le (W H : Nat) (syms : List Nat) :
    undecidedCount (initialize_wfc_grid W H syms) ≤ W * H := by
  unfold undecidedCount
  calc (rowMajorCells (initialize_wfc_grid W H syms)).countP _ ≤
      (rowMajorCells (initialize_wfc_grid W H syms)).length :=
        List.countP_le_length _
    _ = H * W := by
        rw [rowMajorCells_length]
        unfold initialize_wfc_grid
        by_cases hh : H = 0
        · simp [hh]
        · rw [List.getD_eq_getElem?_getD, List.getElem?_eq_getElem
            (by simp; omega)]
          simp
    _ = W * H := Nat.mul_comm H W

/-- C2: every single biome_wfc_step call delivers an answer on the canonical
fuel (the worklist loop always empties within the bound
2 x width x height x catalog-size plus a constant, because domains only
shrink); and from a fresh W by H grid with a well-formed catalog mapping,
some call among the first W x H (with any weight-vector stream, in either
mode, for any oracle streams) returns terminated or truncated. -/
theorem c2_bounded_termination (adj : Adjacency) (tile_symbols : List Nat)
    (tti : Nat → Option Nat) (W H : Nat) (hW : 1 ≤ W) (hH : 1 ≤ H)
    (hcat : ∀ t ∈ tile_symbols, (tti t).isSome)
    (probs : Nat → List ℚ) (det : Bool) (sel1 sel2 : Nat → Nat)
    (rs : Nat → ℚ) (us : Nat → Nat) :
    (∀ (probs2 : List ℚ) (det2 : Bool) (a b : Nat) (r : ℚ) (u : Nat)
      (g : Grid),
      biome_wfc_stepAuto adj tile_symbols tti probs2 det2 a b r u g ≠ none) ∧
    ∃ k, 1 ≤ k ∧ k ≤ W * H ∧
      ∃ g2 t tr, runSteps adj tile_symbols tti probs det sel1 sel2 rs us
        (initialize_wfc_grid W H tile_symbols) k = some (g2, t, tr) ∧
        (t || tr) = true := by
  constructor
  · intro probs2 det2 a b r u g
    exact stepAuto_ne_none adj tile_symbols tti probs2 det2 a b r u g
  · obtain ⟨k, hk1, hkb, rest⟩ := runSteps_terminal adj tile_symbols tti
      (W * H) probs det sel1 sel2 rs us W H
      (initialize_wfc_grid W H tile_symbols)
      ( Rect_initialize W H tile_symbols)
      ( Covered_initialize W H tile_symbols tti hcat)
      (undecided_initialize_le W H tile_symbols)
    refine ⟨k, hk1, ?_, rest⟩
    have hWH : 1 ≤ W * H := Nat.mul_le_mul hW hH
    rw [Nat.max_eq_left hWH] at hkb
    exact hkb

/-- Witness for C2 on a fresh 1 by 1 grid with two tiles: the single call
terminates the grid. -/
theorem c2_bounded_termination_witness :
    (∀ (probs2 : List ℚ) (det2 : Bool) (a b : Nat) (r : ℚ) (u : Nat)
      (g : Grid),
      biome_wfc_stepAuto adjAll [0, 1] ttiTwo probs2 det2 a b r u g ≠
        none) ∧
    ∃ k, 1 ≤ k ∧ k ≤ 1 * 1 ∧
      ∃ g2 t tr, runSteps adjAll [0, 1] ttiTwo (fun _ => [1, 0]) true
        (fun _ => 0) (fun _ => 0) (fun _ => 0) (fun _ => 0)
        (initialize_wfc_grid 1 1 [0, 1]) k = some (g2, t, tr) ∧
        (t || tr) = true :=
  c2_bounded_termination adjAll [0, 1] ttiTwo 1 1 (by decide) (by decide)
    (by decide) (fun _ => [1, 0]) true (fun _ => 0) (fun _ => 0)
    (fun _ => 0) (fun _ => 0)

/-- The empty-neighbor property survives a grid update that never
empties a non-empty cell. -/
theorem EmptyNbr_preserved {W H : Nat} {g gm : Grid} (hsub : Subgrid gm g)
    (hne : ∀ a b : Nat, gridGet g a b ≠ [] → gridGet gm a b ≠ [])
    (he : EmptyNbr W H g) : EmptyNbr W H gm := by
  intro c hc1 hc2 hemp d hd hok
  have hgemp : gridGet g c.1 c.2 = [] := by
    by_contra hcon
    exact hne c.1 c.2 hcon hemp
  have hgn := he c hc1 hc2 hgemp d hd hok
  have hsubn := (hsub (nbr c d).1 (nbr c d).2).1
  cases hgm : gridGet gm (nbr c d).1 (nbr c d).2 with
  | nil => rfl
  | cons a t =>
      have ha : a ∈ gridGet g (nbr c d).1 (nbr c d).2 :=
        hsubn a (by rw [hgm]; simp)
      rw [hgn] at ha
      simp at ha

/-- An arc whose target holds only covered tiles that the membership
test of removed_options keeps is satisfied. -/
theorem arcSat_of_no_unsup {adj : Adjacency} {tti : Nat → Option Nat}
    {curr : Domain} {dirIdx : Nat} {g : Grid} {src tgt : Nat × Nat}
    (hsrc : gridGet g src.1 src.2 = curr)
    (htgt : ∀ t ∈ gridGet g tgt.1 tgt.2,
      (tti t).isSome ∧ unsupB adj tti curr dirIdx t = false) :
    ArcSat adj tti g src tgt dirIdx := by
  intro t ht
  obtain ⟨hsome, hu⟩ := htgt t ht
  obtain ⟨nIdx, hn⟩ := Option.isSome_iff_exists.mp hsome
  exact ⟨nIdx, hn, by rw [hsrc]; exact supported_of_not_unsup hn hu⟩

/-- Arc restoration through the direction loop: when processDirs
returns ok, every arc satisfied before whose source was not re-enqueued
stays satisfied, and the four arcs leaving the popped cell become
satisfied. -/
theorem processDirs_inv (adj : Adjacency) (tti : Nat → Option Nat)
    (W H cx cy : Nat) (curr : Domain)
    (hcur : ∀ t ∈ curr, (tti t).isSome) :
    ∀ (ds : List (Nat × Int × Int)) (g : Grid) (st : List (Nat × Nat))
      (g2 : Grid) (st2 : List (Nat × Nat)),
      processDirs adj tti W H cx cy curr ds g st = .ok g2 st2 →
      (∀ d ∈ ds, d ∈ dirList) →
      gridGet g cx cy = curr →
      Covered tti g →
      (∀ c : Nat × Nat, c ≠ (cx, cy) → c.1 < W → c.2 < H → c ∉ st →
        ∀ d ∈ dirList, nbrOk W H c d → ArcSat adj tti g c (nbr c d) d.1) →
      (∀ d ∈ dirList, d ∉ ds → nbrOk W H (cx, cy) d →
        ArcSat adj tti g (cx, cy) (nbr (cx, cy) d) d.1) →
      ((∀ c : Nat × Nat, c ≠ (cx, cy) → c.1 < W → c.2 < H → c ∉ st2 →
        ∀ d ∈ dirList, nbrOk W H c d → ArcSat adj tti g2 c (nbr c d) d.1) ∧
       (∀ d ∈ dirList, nbrOk W H (cx, cy) d →
         ArcSat adj tti g2 (cx, cy) (nbr (cx, cy) d) d.1)) := by
  intro ds
  induction ds with
  | nil =>
      intro g st g2 st2 heq _ hg _ hInvO hSelf
      simp only [processDirs] at heq
      obtain ⟨rfl, rfl⟩ : g = g2 ∧ st = st2 := by
        cases heq
        exact ⟨rfl, rfl⟩
      exact ⟨hInvO, fun d hd hok => hSelf d hd (List.not_mem_nil d) hok⟩
  | cons d0 rest ih =>
      intro g st g2 st2 heq hds hg hcov hInvO hSelf
      obtain ⟨dirIdx, dx, dy⟩ := d0
      have hd0 : (dirIdx, dx, dy) ∈ dirList := hds _ (List.mem_cons_self _ _)
      have hds2 : ∀ d ∈ rest, d ∈ dirList :=
        fun d hd => hds d (List.mem_cons_of_mem _ hd)
      simp only [processDirs] at heq
      by_cases hcond : 0 ≤ (cx : Int) + dx ∧ (cx : Int) + dx < (W : Int) ∧
          0 ≤ (cy : Int) + dy ∧ (cy : Int) + dy < (H : Int)
      · rw [if_pos hcond] at heq
        set nx := ((cx : Int) + dx).toNat with hnx
        set ny := ((cy : Int) + dy).toNat with hny
        have hnbr : nbr (cx, cy) (dirIdx, dx, dy) = (nx, ny) := by
          unfold nbr
          rw [hnx, hny]
        by_cases horig : gridGet g nx ny = []
        · rw [if_pos horig] at heq
          apply ih g st g2 st2 heq hds2 hg hcov hInvO
          intro d hd hdns hok
          by_cases hdd : d = (dirIdx, dx, dy)
          · rw [hdd, hnbr]
            exact ArcSat_of_empty_target horig
          · exact hSelf d hd
              (fun hmem => (List.mem_cons.mp hmem).elim hdd hdns) hok
        · rw [if_neg horig] at heq
          have horigcov : ∀ t ∈ gridGet g nx ny, (tti t).isSome :=
            fun t ht => hcov nx ny t ht
          rw [removedOptions_eq_filter adj tti curr dirIdx (gridGet g nx ny)
            hcur horigcov] at heq
          dsimp only at heq
          set L := (gridGet g nx ny).filter (unsupB adj tti curr dirIdx)
            with hL
          by_cases hrem : L = []
          · rw [if_pos hrem] at heq
            apply ih g st g2 st2 heq hds2 hg hcov hInvO
            intro d hd hdns hok
            by_cases hdd : d = (dirIdx, dx, dy)
            · rw [hdd, hnbr]
              apply arcSat_of_no_unsup hg
              intro t ht
              refine ⟨horigcov t ht, ?_⟩
              by_contra hu
              have : t ∈ L := by
                rw [hL]
                exact List.mem_filter.mpr ⟨ht, by simpa using hu⟩
              rw [hrem] at this
              simp at this
            · exact hSelf d hd
                (fun hmem => (List.mem_cons.mp hmem).elim hdd hdns) hok
          · rw [if_neg hrem] at heq
            by_cases hnew : (gridGet g nx ny).filter (fun t => t ∉ L) = []
            · rw [if_pos hnew] at heq
              exact absurd heq (by simp)
            · rw [if_neg hnew] at heq
              by_cases hlt : ((gridGet g nx ny).filter
                  (fun t => t ∉ L)).length < (gridGet g nx ny).length
              · rw [if_pos hlt] at heq
                set newPoss := (gridGet g nx ny).filter (fun t => t ∉ L)
                  with hnp
                set stMid := if (nx, ny) ∈ st then st else (nx, ny) :: st
                  with hsm
                have hb := gridGet_ne_nil_bounds horig
                have hsub1 : Subgrid (gridSet g nx ny newPoss) g :=
                  subgrid_gridSet
                    (fun t ht => (List.mem_filter.mp ht).1)
                    (List.length_filter_le _ _)
                have hne2 : (nx, ny) ≠ (cx, cy) := by
                  rw [← hnbr]
                  exact nbr_ne hd0 hcond.1 hcond.2.2.1
                have hgm : gridGet (gridSet g nx ny newPoss) cx cy = curr := by
                  rw [← hg]
                  apply gridGet_gridSet_ne
                  intro hcc
                  exact hne2 (Prod.ext hcc.1.symm hcc.2.symm)
                have hnewposs :
                    gridGet (gridSet g nx ny newPoss) nx ny = newPoss :=
                  gridGet_gridSet_self newPoss hb.1 hb.2
                have hsat0 : ArcSat adj tti (gridSet g nx ny newPoss)
                    (cx, cy) (nx, ny) dirIdx := by
                  apply arcSat_of_no_unsup hgm
                  intro t ht
                  rw [hnewposs] at ht
                  have htmem := List.mem_filter.mp ht
                  have htL : t ∉ L := by simpa using htmem.2
                  refine ⟨horigcov t htmem.1, ?_⟩
                  by_contra hu
                  apply htL
                  rw [hL]
                  exact List.mem_filter.mpr ⟨htmem.1, by simpa using hu⟩
                apply ih (gridSet g nx ny newPoss) stMid g2 st2 heq hds2 hgm
                  (hcov.of_subgrid hsub1)
                · -- other arcs transported
                  intro c hcne hc1 hc2 hcst d hd hok
                  have hcnxny : c ≠ (nx, ny) := by
                    intro hceq
                    rw [hsm] at hcst
                    by_cases hmem : (nx, ny) ∈ st
                    · rw [if_pos hmem] at hcst
                      exact hcst (hceq ▸ hmem)
                    · rw [if_neg hmem] at hcst
                      exact hcst (hceq ▸ List.mem_cons_self _ _)
                  have hcstold : c ∉ st := by
                    intro hmem
                    apply hcst
                    rw [hsm]
                    by_cases hm2 : (nx, ny) ∈ st
                    · rw [if_pos hm2]
                      exact hmem
                    · rw [if_neg hm2]
                      exact List.mem_cons_of_mem _ hmem
                  apply ArcSat_mono ?_ ?_
                    (hInvO c hcne hc1 hc2 hcstold d hd hok)
                  · rw [← hg] at hgm
                    apply gridGet_gridSet_ne
                    intro hcc
                    exact hcnxny (Prod.ext hcc.1 hcc.2)
                  · exact fun t ht => (hsub1 (nbr c d).1 (nbr c d).2).1 t ht
                · -- arcs from the popped cell
                  intro d hd hdns hok
                  by_cases hdd : d = (dirIdx, dx, dy)
                  · rw [hdd, hnbr]
                    exact hsat0
                  · apply ArcSat_mono ?_ ?_
                      (hSelf d hd
                        (fun hmem => (List.mem_cons.mp hmem).elim hdd hdns)
                        hok)
                    · rw [hgm, hg]
                    · exact fun t ht => (hsub1 (nbr (cx, cy) d).1
                        (nbr (cx, cy) d).2).1 t ht
              · exfalso
                obtain ⟨t0, ht0⟩ := List.exists_mem_of_ne_nil L hrem
                have ht0o : t0 ∈ gridGet g nx ny := by
                  rw [hL] at ht0
                  exact (List.mem_filter.mp ht0).1
                apply hlt
                apply filter_length_lt ht0o
                simp only [decide_eq_false_iff_not, Decidable.not_not]
                exact ht0
      · rw [if_neg hcond] at heq
        apply ih g st g2 st2 heq hds2 hg hcov hInvO
        intro d hd hdns hok
        by_cases hdd : d = (dirIdx, dx, dy)
        · exfalso
          apply hcond
          rw [hdd] at hok
          exact hok
        · exact hSelf d hd
            (fun hmem => (List.mem_cons.mp hmem).elim hdd hdns) hok

/-- Main invariant of the worklist loop: started from a state in
which every arc whose source is not pending on the stack is satisfied, a
successful run leaves every arc of the grid satisfied. -/
theorem propagateLoop_AC (adj : Adjacency) (tti : Nat → Option Nat)
    (W H : Nat) :
    ∀ (fuel : Nat) (st : List (Nat × Nat)) (g g2 : Grid),
      propagateLoop adj tti W H fuel st g = some (.success g2) →
      Covered tti g → PropInv adj tti W H g st → EmptyNbr W H g →
      StackIn W H st →
      PropInv adj tti W H g2 [] := by
  intro fuel
  induction fuel with
  | zero =>
      intro st g g2 heq _ _ _ _
      simp only [propagateLoop] at heq
      exact absurd heq (by simp)
  | succ fuel ih =>
      intro st g g2 heq hcov hinv hemp hstin
      cases st with
      | nil =>
          simp only [propagateLoop, Option.some.injEq, PropOut.success.injEq]
            at heq
          rw [← heq]
          exact hinv
      | cons c rest =>
          obtain ⟨cx, cy⟩ := c
          have hhead := hstin (cx, cy) (List.mem_cons_self _ _)
          have hstin2 : StackIn W H rest :=
            fun c hc => hstin c (List.mem_cons_of_mem _ hc)
          simp only [propagateLoop] at heq
          by_cases hcemp : gridGet g cx cy = []
          · rw [if_pos hcemp] at heq
            apply ih rest g g2 heq hcov ?_ hemp hstin2
            intro c hc1 hc2 hcnotin d hd hok
            by_cases hceq : c = (cx, cy)
            · apply ArcSat_of_empty_target
              exact hemp c hc1 hc2 (by rw [hceq]; exact hcemp) d hd hok
            · exact hinv c hc1 hc2
                (fun hmem => (List.mem_cons.mp hmem).elim hceq hcnotin)
                d hd hok
          · rw [if_neg hcemp] at heq
            cases hpd : processDirs adj tti W H cx cy (gridGet g cx cy)
                dirList g rest with
            | ok gm stm =>
                rw [hpd] at heq
                dsimp only at heq
                have hbasic := processDirs_basic adj tti W H cx cy
                  (gridGet g cx cy) dirList g rest gm stm hpd
                  (fun d hd => hd)
                have hinvs := processDirs_inv adj tti W H cx cy
                  (gridGet g cx cy) (fun t ht => hcov cx cy t ht)
                  dirList g rest gm stm hpd (fun d hd => hd) rfl hcov
                  (fun c hcne hc1 hc2 hcnotin d hd hok =>
                    hinv c hc1 hc2
                      (fun hmem => (List.mem_cons.mp hmem).elim
                        (fun h => hcne h) hcnotin) d hd hok)
                  (fun d hd hdn _ => absurd hd hdn)
                apply ih stm gm g2 heq (hcov.of_subgrid hbasic.1) ?_
                  (EmptyNbr_preserved hbasic.1 hbasic.2.1 hemp) ?_
                · intro c hc1 hc2 hcnotin d hd hok
                  by_cases hceq : c = (cx, cy)
                  · rw [hceq]
                    exact hinvs.2 d hd (by rw [← hceq]; exact hok)
                  · exact hinvs.1 c hceq hc1 hc2 hcnotin d hd hok
                · intro c hc
                  rcases hbasic.2.2.2.2.1 c hc with hrest | hbnd
                  · exact hstin2 c hrest
                  · exact hbnd
            | contra gm =>
                rw [hpd] at heq
                simp at heq
            | err =>
                rw [hpd] at heq
                simp at heq

/-- The Boolean arc-consistency check agrees with the arc-by-arc
formulation on a rectangular grid. -/
theorem arcConsistentB_iff {adj : Adjacency} {tti : Nat → Option Nat}
    {g : Grid} {W H : Nat} (hrect : Rect g W H) (hH : 0 < H) :
    arcConsistentB adj tti g = true ↔
      ∀ c : Nat × Nat, c.1 < W → c.2 < H → ∀ d ∈ dirList,
        nbrOk W H c d → ArcSat adj tti g c (nbr c d) d.1 := by
  unfold arcConsistentB
  rw [List.all_eq_true]
  have hW0 : (g.getD 0 []).length = W := hrect.row_len hH
  have hHl : g.length = H := hrect.1
  have hcast1 : ((g.getD 0 []).length : Int) = (W : Int) := by
    rw [hW0]
  have hcast2 : ((g.length : Int)) = (H : Int) := by
    rw [hHl]
  constructor
  · intro hB c hc1 hc2 d hd hok
    have hcmem : c ∈ rowMajorCells g :=
      mem_rowMajorCells.mpr ⟨by rw [hW0]; exact hc1, by rw [hHl]; exact hc2⟩
    have h1 := hB c hcmem
    rw [List.all_eq_true] at h1
    have h2 := h1 d hd
    dsimp only at h2
    obtain ⟨ho1, ho2, ho3, ho4⟩ := hok
    rw [if_pos ⟨ho1, by rw [hcast1]; exact ho2, ho3,
      by rw [hcast2]; exact ho4⟩] at h2
    rw [List.all_eq_true] at h2
    intro t ht
    have h3 := h2 t ht
    cases htti : tti t with
    | none =>
        rw [htti] at h3
        simp at h3
    | some nIdx =>
        rw [htti] at h3
        refine ⟨nIdx, rfl, ?_⟩
        simpa using h3
  · intro hP c hcmem
    rw [List.all_eq_true]
    intro d hd
    dsimp only
    by_cases hcond : 0 ≤ (c.1 : Int) + d.2.1 ∧
        (c.1 : Int) + d.2.1 < ((g.getD 0 []).length : Int) ∧
        0 ≤ (c.2 : Int) + d.2.2 ∧ (c.2 : Int) + d.2.2 < ((g.length : Int))
    · rw [if_pos hcond]
      rw [List.all_eq_true]
      intro t ht
      obtain ⟨hm1, hm2⟩ := mem_rowMajorCells.mp hcmem
      have hok : nbrOk W H c d :=
        ⟨hcond.1, by rw [← hcast1]; exact hcond.2.1, hcond.2.2.1,
          by rw [← hcast2]; exact hcond.2.2.2⟩
      obtain ⟨nIdx, htti, hsup⟩ := hP c (by rw [← hW0]; exact hm1)
        (by rw [← hHl]; exact hm2) d hd hok t ht
      rw [htti]
      simpa using hsup
    · rw [if_neg hcond]

/-- An arc-consistent grid has the empty-neighbor property, because a
support inside an empty domain is impossible. -/
theorem EmptyNbr_of_AC {adj : Adjacency} {tti : Nat → Option Nat}
    {g : Grid} {W H : Nat}
    (hP : ∀ c : Nat × Nat, c.1 < W → c.2 < H → ∀ d ∈ dirList,
      nbrOk W H c d → ArcSat adj tti g c (nbr c d) d.1) :
    EmptyNbr W H g := by
  intro c hc1 hc2 hemp d hd hok
  have hsat := hP c hc1 hc2 d hd hok
  cases hgn : gridGet g (nbr c d).1 (nbr c d).2 with
  | nil => rfl
  | cons a t =>
      obtain ⟨nIdx, _, hsup⟩ := hsat a (by rw [hgn]; simp)
      rw [hemp] at hsup
      simp [supportedB] at hsup

/-- C1 as amended: local arc consistency is an invariant a step
preserves, not an unconditional post-condition of successful propagation.
On a rectangular, catalog-covered grid that is already arc consistent, when
the propagate_constraints call a step makes on the freshly collapsed cell
returns success, the resulting grid again passes the whole-grid
arc-consistency check, for any fuel, hence independently of worklist
ordering. -/
theorem c1_arc_consistency (adj : Adjacency) (tile_symbols : List Nat)
    (tti : Nat → Option Nat) (action_probs : List ℚ) (det : Bool)
    (r : ℚ) (u : Nat) (W H x y fuel : Nat) (g g2 : Grid) (tile : Nat)
    (hrect : Rect g W H) (hH : 0 < H) (hcov : Covered tti g)
    (hAC : arcConsistentB adj tti g = true) (hx : x < W) (hy : y < H)
    (hc : (collapse_cell g tile_symbols tti x y action_probs det r u).2
      = some tile)
    (hp : propagate_constraints adj tti
        (collapse_cell g tile_symbols tti x y action_probs det r u).1
        x y fuel = some (.success g2)) :
    arcConsistentB adj tti g2 = true := by
  obtain ⟨hmem, hne, heqc⟩ := collapse_some_eq hc
  rw [heqc] at hp
  dsimp only at hp
  set gm := gridSet g x y [tile] with hgm
  have hrectm : Rect gm W H := Rect_gridSet hrect x y [tile]
  have hw : ((gm.getD 0 []).length) = W := Rect.row_len hrectm hH
  have hh : gm.length = H := hrectm.1
  unfold propagate_constraints at hp
  rw [hw, hh] at hp
  have hsubm : Subgrid gm g := by
    apply subgrid_gridSet
    · intro t ht
      simp only [List.mem_singleton] at ht
      rw [ht]
      exact hmem
    · simp only [List.length_singleton]
      have := List.length_pos.mpr hne
      omega
  have hcovm : Covered tti gm := hcov.of_subgrid hsubm
  have hP := (arcConsistentB_iff hrect hH).mp hAC
  have hempg : EmptyNbr W H g := EmptyNbr_of_AC hP
  have hnem : ∀ a b : Nat, gridGet g a b ≠ [] → gridGet gm a b ≠ [] := by
    intro a b hab
    by_cases hxy : a = x ∧ b = y
    · obtain ⟨rfl, rfl⟩ := hxy
      obtain ⟨hb1, hb2⟩ := gridGet_ne_nil_bounds hab
      rw [hgm, gridGet_gridSet_self [tile] hb1 hb2]
      simp
    · rw [hgm, gridGet_gridSet_ne [tile] hxy]
      exact hab
  have hempm : EmptyNbr W H gm := EmptyNbr_preserved hsubm hnem hempg
  have hinvm : PropInv adj tti W H gm [(x, y)] := by
    intro c hc1 hc2 hcnot d hd hok
    have hcne : c ≠ (x, y) := by
      intro hceq
      exact hcnot (by rw [hceq]; exact List.mem_singleton_self _)
    have hsrc : gridGet gm c.1 c.2 = gridGet g c.1 c.2 := by
      rw [hgm]
      exact gridGet_gridSet_ne [tile]
        (fun hab => hcne (Prod.ext_iff.mpr ⟨hab.1, hab.2⟩))
    exact ArcSat_mono hsrc
      (fun t ht => (hsubm (nbr c d).1 (nbr c d).2).1 t ht)
      (hP c hc1 hc2 d hd hok)
  have hstin : StackIn W H [(x, y)] := by
    intro c hcmem
    simp only [List.mem_singleton] at hcmem
    rw [hcmem]
    exact ⟨hx, hy⟩
  have hfin := propagateLoop_AC adj tti W H fuel [(x, y)] gm g2 hp hcovm
    hinvm hempm hstin
  have hshape := propagateLoop_success_shape adj tti W H fuel [(x, y)] gm g2 hp
  have hrect2 : Rect g2 W H := rect_of_shape hrectm hshape.1 hshape.2
  exact (arcConsistentB_iff hrect2 hH).mpr
    (fun c hc1 hc2 d hd hok => hfin c hc1 hc2 (List.not_mem_nil c) d hd hok)

/-- Counterexample for C1 as stated: the fresh 3 by 1 grid, reachable
with zero steps, is not arc consistent under adjRightOnly; the first step
collapses cell (0, 0), its propagate_constraints call returns success and
the step reports the episode still running, yet the resulting grid fails
the arc-consistency check.  Propagation only enqueues the collapsed cell
and never revisits stale arcs elsewhere, so without an arc-consistency
precondition the claimed post-condition is false. -/
theorem c1_counterexample :
    find_lowest_entropy_cell (initialize_wfc_grid 3 1 [0, 1]) true 0 =
      some (0, 0) ∧
    (collapse_cell (initialize_wfc_grid 3 1 [0, 1]) [0, 1] ttiTwo 0 0
      [1, 0] true 0 0).2 = some 0 ∧
    propagate_constraints adjRightOnly ttiTwo
      (collapse_cell (initialize_wfc_grid 3 1 [0, 1]) [0, 1] ttiTwo 0 0
        [1, 0] true 0 0).1 0 0
      (stepFuel (initialize_wfc_grid 3 1 [0, 1])) =
      some (.success [[[0], [0, 1], [0, 1]]]) ∧
    biome_wfc_stepAuto adjRightOnly [0, 1] ttiTwo [1, 0] true 0 0 0 0
      (initialize_wfc_grid 3 1 [0, 1]) =
      some (.ok [[[0], [0, 1], [0, 1]]] false false) ∧
    arcConsistentB adjRightOnly ttiTwo [[[0], [0, 1], [0, 1]]] = false :=
  ⟨by decide, by decide, by decide, by decide, by decide⟩

/-- Witness for C1 as amended, on a fresh 2 by 1 grid under the
all-compatible adjacency: the grid is arc consistent, collapse and
propagation succeed, and the amended theorem applies. -/
theorem c1_arc_consistency_witness :
    arcConsistentB adjAll ttiTwo (initialize_wfc_grid 2 1 [0, 1]) = true ∧
    (collapse_cell (initialize_wfc_grid 2 1 [0, 1]) [0, 1] ttiTwo 0 0
      [1, 0] true 0 0).2 = some 0 ∧
    propagate_constraints adjAll ttiTwo
      (collapse_cell (initialize_wfc_grid 2 1 [0, 1]) [0, 1] ttiTwo 0 0
        [1, 0] true 0 0).1 0 0 10 = some (.success [[[0], [0, 1]]]) ∧
    arcConsistentB adjAll ttiTwo [[[0], [0, 1]]] = true :=
  ⟨by decide, by decide, by decide,
    c1_arc_consistency adjAll [0, 1] ttiTwo [1, 0] true 0 0 2 1 0 0 10
      (initialize_wfc_grid 2 1 [0, 1]) [[[0], [0, 1]]] 0
      ( Rect_initialize 2 1 [0, 1]) (by decide)
      ( Covered_initialize 2 1 [0, 1] ttiTwo (by decide))
      (by decide) (by decide) (by decide) (by decide) (by decide)⟩
